import Mathlib

/-!
Shallow embedding of the mozsearch identifier-index core:
`tools/src/file_format/identifiers.rs` (memory-mapped sorted identifier
index with bisection lookup) and `tools/src/abstract_server/local_index.rs`
(local server adapter).  Byte strings are modelled as `List Nat`, strings as
`String`/`List Char`, and operations that can panic in Rust return `Option`
(`none` = panic).  External collaborators (mmap outcome, the `c++filt`
demangler, the JSON parser, configuration loading) are passed as parameters.
-/

set_option maxHeartbeats 1000000

namespace Mozsearch

/-- `uppercase` from identifiers.rs applied to one byte: `b'a'..=b'z'`
is shifted down by 32, everything else is unchanged. -/
def upByte (b : Nat) : Nat := if 97 ≤ b ∧ b ≤ 122 then b - 32 else b

/-- `uppercase` from identifiers.rs: byte-wise ASCII uppercase of a byte string. -/
def uppercase (s : List Nat) : List Nat := s.map upByte

/-- Rust's lexicographic `<` on byte slices (`&[u8]`/`Vec<u8>` ordering). -/
def bltb : List Nat → List Nat → Bool
  | [], [] => false
  | [], _ :: _ => true
  | _ :: _, [] => false
  | a :: x, b :: y => if a < b then true else if b < a then false else bltb x y

/-- Rust's lexicographic `≤` on byte slices. -/
def bleb (x y : List Nat) : Bool := !(bltb y x)

/-- An identifiers file built from its newline-terminated records
(`<id> <symbol>\n` per §6 of the design). -/
def joinNL : List (List Nat) → List Nat
  | [] => []
  | l :: ls => l ++ 10 :: joinNL ls

/-- Byte offset of the start of record `i` inside `joinNL lines`
(equals the total size when `i ≥ lines.length`). -/
def offAt : List (List Nat) → Nat → Nat
  | _, 0 => 0
  | [], _ + 1 => 0
  | l :: ls, i + 1 => l.length + 1 + offAt ls i

/-- The backward scan of `IdentMap::get_line`:
`while start > 0 && bytes[start - 1] != b'\n' { start -= 1 }`. -/
def scanBack (bytes : List Nat) : Nat → Nat
  | 0 => 0
  | s + 1 => if bytes.getD s 0 = 10 then s + 1 else scanBack bytes s

/-- One fuelled step chain of the forward scan of `IdentMap::get_line`:
`while end < size && bytes[end] != b'\n' { end += 1 }`.  The fuel
`bytes.length - e` makes the loop structurally recursive. -/
def scanFwdGo (bytes : List Nat) : Nat → Nat → Nat
  | 0, e => e
  | r + 1, e => if bytes.getD e 0 = 10 then e else scanFwdGo bytes r (e + 1)

/-- The forward scan of `IdentMap::get_line`. -/
def scanFwd (bytes : List Nat) (e : Nat) : Nat :=
  scanFwdGo bytes (bytes.length - e) e

/-- The slice `&bytes[start..end]` produced by `IdentMap::get_line` around
position `p` (after the newline adjustment). -/
def extractLine (bytes : List Nat) (p : Nat) : List Nat :=
  (bytes.take (scanFwd bytes p)).drop (scanBack bytes p)

/-- `IdentMap::get_line`.  Returns `none` exactly when the Rust code would
panic: an out-of-bounds index, or the `pos -= 1` underflow when `pos = 0`
and `bytes[0] = b'\n'`. -/
def getLine (bytes : List Nat) (pos : Nat) : Option (List Nat) :=
  if pos < bytes.length then
    if bytes.getD pos 0 = 10 then
      if pos = 0 then none
      else some (extractLine bytes (pos - 1))
    else some (extractLine bytes pos)
  else none

/-- The binary-search loop of `IdentMap::bisect`.  `first`/`count` evolve as
in the Rust `while count > 0` loop; the extra fuel argument only makes the
loop structurally recursive (`fuel ≥ count + 1` always suffices, since
`count` strictly decreases each iteration). -/
def bisectGo (bytes key : List Nat) (ub : Bool) : Nat → Nat → Nat → Option Nat
  | 0, _, _ => none
  | fuel + 1, first, count =>
    if count = 0 then some first
    else
      let step := count / 2
      let pos := first + step
      match getLine bytes pos with
      | none => none
      | some line =>
        if bltb (uppercase line) key || (ub && uppercase line == key) then
          bisectGo bytes key ub fuel (pos + 1) (count - (step + 1))
        else
          bisectGo bytes key ub fuel first step

/-- `IdentMap::bisect` on a present mapping: uppercase the needle, append
the sentinel `b'~'` (126) when seeking the upper bound, then binary-search
over byte positions. -/
def bisect (bytes needle : List Nat) (ub : Bool) : Option Nat :=
  let key := if ub then uppercase needle ++ [126] else uppercase needle
  bisectGo bytes key ub (bytes.length + 1) 0 bytes.length

/-- Fuelled chunking of a byte slice on `b'\n'`, as `BufRead::lines` reads it
(`read_until b'\n'`); each step consumes at least one byte so fuel
`bs.length` suffices. -/
def rustLinesGo : Nat → List Nat → List (List Nat)
  | 0, _ => []
  | fuel + 1, bs =>
    if bs.isEmpty then []
    else
      let chunk := bs.takeWhile (fun b => !(b == 10))
      chunk :: rustLinesGo fuel (bs.drop (chunk.length + 1))

/-- The raw chunks yielded by `slice.lines()` (before the per-chunk UTF-8
check and `\r` strip, which `processLine` performs). -/
def rustLines (bs : List Nat) : List (List Nat) := rustLinesGo bs.length bs

/-- The trailing-`\r` strip performed by `BufRead::lines` on each line.
Faithfulness note: the `std` iterator strips a trailing `\r` only when the
chunk was `\n`-terminated, while this model strips it unconditionally.  The
two agree on every chunk that does not end in a bare `\r`; the theorems
below only ever discharge the strip on records shown (or hypothesised) to
contain no `\r` at all, where it is a no-op under both readings, so no
result depends on the difference. -/
def stripCR (l : List Nat) : List Nat :=
  if l.getLast? = some 13 then l.dropLast else l

/-- A UTF-8 continuation byte. -/
def isCont (b : Nat) : Bool := 128 ≤ b && b < 192

/-- Fuelled UTF-8 validation step (the fuel only makes the byte-count
recursion structural; `l.length` always suffices).  Lead-byte ranges per
RFC 3629, rejecting overlong forms and surrogates, as `String::from_utf8`
checks inside `BufRead::lines`. -/
def validUtf8Go : Nat → List Nat → Bool
  | _, [] => true
  | 0, _ :: _ => false
  | fuel + 1, b :: r =>
    if b < 128 then validUtf8Go fuel r
    else if b < 194 then false
    else if b < 224 then
      decide (1 ≤ r.length) && isCont (r.getD 0 0) && validUtf8Go fuel (r.drop 1)
    else if b < 240 then
      decide (2 ≤ r.length) &&
        (if b = 224 then decide (160 ≤ r.getD 0 0) && decide (r.getD 0 0 < 192)
         else if b = 237 then decide (128 ≤ r.getD 0 0) && decide (r.getD 0 0 < 160)
         else isCont (r.getD 0 0)) &&
        isCont (r.getD 1 0) && validUtf8Go fuel (r.drop 2)
    else if b < 245 then
      decide (3 ≤ r.length) &&
        (if b = 240 then decide (144 ≤ r.getD 0 0) && decide (r.getD 0 0 < 192)
         else if b = 244 then decide (128 ≤ r.getD 0 0) && decide (r.getD 0 0 < 144)
         else isCont (r.getD 0 0)) &&
        isCont (r.getD 1 0) && isCont (r.getD 2 0) && validUtf8Go fuel (r.drop 3)
    else false

/-- UTF-8 validity of a byte string, as checked by `String::from_utf8`. -/
def validUtf8 (l : List Nat) : Bool := validUtf8Go l.length l

/-- Rust `str::is_char_boundary` in terms of the byte string. -/
def charBoundary (s : List Nat) (i : Nat) : Bool :=
  if i = 0 then true
  else if i < s.length then !isCont (s.getD i 0)
  else i == s.length

/-- One element of the `Vec<IdentResult>` returned by `IdentMap::lookup`. -/
structure IdentResult where
  id : List Nat
  symbol : List Nat
deriving DecidableEq, Repr

/-- The per-candidate body of the `for line in slice.lines()` loop of
`IdentMap::lookup`, up to (and including) building the `IdentResult`.
Outer `none` = the Rust code panics on this line (invalid UTF-8, a missing
second field, or an out-of-bounds / non-boundary suffix slice); `some none`
= the line is skipped by `continue`; `some (some r)` = `r` is pushed.
`dem` is the external `demangle_name` collaborator. -/
def processLine (needle : List Nat) (exactMatch ignoreCase : Bool)
    (dem : List Nat → List Nat) (chunk : List Nat) : Option (Option IdentResult) :=
  if !validUtf8 chunk then none
  else
    let line := stripCR chunk
    let id := line.takeWhile (fun b => !(b == 32))
    if !line.contains 32 then none
    else
      let symbol := (line.drop (id.length + 1)).takeWhile (fun b => !(b == 32))
      if needle.length > id.length || !charBoundary id needle.length then none
      else
        let suffix := id.drop needle.length
        if suffix.contains 58 || suffix.contains 46 || (exactMatch && !suffix.isEmpty) then
          some none
        else if !ignoreCase && !(needle.isPrefixOf id) then some none
        else
          let demangled := dem symbol
          some (some ⟨if demangled = symbol then id else demangled, symbol⟩)

/-- The accepted candidate of a line, if any (skips and panics give `none`). -/
def matchLine (needle : List Nat) (exactMatch ignoreCase : Bool)
    (dem : List Nat → List Nat) (chunk : List Nat) : Option IdentResult :=
  (processLine needle exactMatch ignoreCase dem chunk).join

/-- The scan loop of `IdentMap::lookup`: process each line of the bisected
slice, pushing accepted results, and break as soon as
`result.len() == max_results` right after a push. -/
def lookupLoop (needle : List Nat) (exactMatch ignoreCase : Bool) (maxResults : Nat)
    (dem : List Nat → List Nat) : List (List Nat) → List IdentResult → Option (List IdentResult)
  | [], acc => some acc
  | c :: cs, acc =>
    match processLine needle exactMatch ignoreCase dem c with
    | none => none
    | some none => lookupLoop needle exactMatch ignoreCase maxResults dem cs acc
    | some (some r) =>
      let acc' := acc ++ [r]
      if acc'.length = maxResults then some acc'
      else lookupLoop needle exactMatch ignoreCase maxResults dem cs acc'

/-- `IdentMap::lookup` on a present mapping: bisect the needle's range,
slice it (`&bytes[start..end]`, panicking if the range is invalid), and
scan its lines. -/
def lookupBuf (bytes needle : List Nat) (exactMatch ignoreCase : Bool)
    (maxResults : Nat) (dem : List Nat → List Nat) : Option (List IdentResult) :=
  match bisect bytes needle false, bisect bytes needle true with
  | some s, some e =>
    if s ≤ e ∧ e ≤ bytes.length then
      lookupLoop needle exactMatch ignoreCase maxResults dem
        (rustLines ((bytes.take e).drop s)) []
    else none
  | _, _ => none

/-- `IdentMap`: a read-only view of the identifiers file, `none` when the
mapping could not be established. -/
structure IdentMap where
  mmap : Option (List Nat)
deriving DecidableEq, Repr

/-- `IdentMap::new`, with the outcome of `Mmap::open_path` passed in:
a failed mapping yields the absent state instead of failing the caller. -/
def IdentMap.new (mmapResult : Except String (List Nat)) : IdentMap :=
  ⟨mmapResult.toOption⟩

/-- `IdentMap::lookup`: empty result when the mapping is absent, otherwise
the buffer lookup. -/
def IdentMap.lookup (im : IdentMap) (needle : List Nat) (exactMatch ignoreCase : Bool)
    (maxResults : Nat) (dem : List Nat → List Nat) : Option (List IdentResult) :=
  match im.mmap with
  | none => some []
  | some bytes => lookupBuf bytes needle exactMatch ignoreCase maxResults dem

/-- Modelled from the spec: the error taxonomy of §7.  The concrete enums
live in `server_interface.rs`, which is not among the examined sources; the
constructors modelled here are exactly the ones `local_index.rs` uses
(`ServerError::StickyProblem` with an `ErrorDetails` carrying an
`ErrorLayer`, and `ServerError::Unsupported`). -/
inductive ErrorLayer
  | serverLayer
  | badInput
deriving DecidableEq, Repr

/-- Modelled from the spec: the payload of a `ServerError::StickyProblem`. -/
structure ErrorDetails where
  layer : ErrorLayer
  message : String
deriving DecidableEq, Repr

/-- Modelled from the spec: the server error type, restricted to the
variants used by `local_index.rs`. -/
inductive ServerError
  | stickyProblem (details : ErrorDetails)
  | unsupported
deriving DecidableEq, Repr

/-- Whether an error uses the sticky-problem variant. -/
def ServerError.isStickyProblem : ServerError → Bool
  | .stickyProblem _ => true
  | .unsupported => false

/-- Tree-level path configuration (`TreeConfigPaths`). -/
structure TreeConfigPaths where
  index_path : String
deriving DecidableEq, Repr

/-- One tree's configuration entry. -/
structure TreeConfig where
  paths : TreeConfigPaths
deriving DecidableEq, Repr

/-- The loaded multi-tree configuration (the result of `config::load`,
which is an external collaborator). -/
structure Config where
  trees : List (String × TreeConfig)
deriving DecidableEq, Repr

/-- The `LocalIndex` server struct of `local_index.rs`. -/
structure LocalIndex where
  config_paths : TreeConfigPaths
  tree_name : String
  ident_map : IdentMap
  crossref_lookup_map : Option Unit
deriving Repr

/-- `make_local_server`, with the filesystem (`fs`, the outcome of mapping a
path) and `CrossrefLookupMap::new` passed in as collaborators.  An unknown
tree name yields `ServerError::StickyProblem` with layer `BadInput`;
otherwise the server is assembled, the identifier map absorbing a failed
mapping internally. -/
def makeLocalServer (fs : String → Except String (List Nat))
    (crossrefNew : String → String → Option Unit)
    (config : Config) (treeName : String) : Except ServerError LocalIndex :=
  match (config.trees.find? (fun p => p.1 == treeName)).map (fun p => p.2) with
  | none => .error (.stickyProblem ⟨.badInput, "bad tree name: " ++ treeName⟩)
  | some tc =>
    .ok { config_paths := tc.paths
          tree_name := treeName
          ident_map := IdentMap.new (fs (tc.paths.index_path ++ "/identifiers"))
          crossref_lookup_map :=
            crossrefNew (tc.paths.index_path ++ "/crossref")
              (tc.paths.index_path ++ "/crossref-extra") }

/-- `LocalIndex::search_identifiers`: delegate to `IdentMap::lookup` and
push `(ir.symbol, ir.id)` pairs — raw symbol first, display id second. -/
def LocalIndex.search_identifiers (srv : LocalIndex) (needle : List Nat)
    (exactMatch ignoreCase : Bool) (matchLimit : Nat)
    (dem : List Nat → List Nat) : Option (List (List Nat × List Nat)) :=
  match srv.ident_map.lookup needle exactMatch ignoreCase matchLimit dem with
  | none => none
  | some irs => some (irs.foldl (fun acc ir => acc ++ [(ir.symbol, ir.id)]) [])

/-- The trailing-`\r` strip of `str::lines` on a newline-terminated line. -/
def stripCRChars (l : List Char) : List Char :=
  if l.getLast? = some '\r' then l.dropLast else l

/-- Fuelled `str::lines`: split on `'\n'`, stripping a `'\r'` before each
line terminator; a final fragment without a terminator is yielded as-is. -/
def strLinesGo : Nat → List Char → List (List Char)
  | 0, _ => []
  | fuel + 1, cs =>
    if cs.isEmpty then []
    else
      let chunk := cs.takeWhile (fun c => !(c == '\n'))
      if chunk.length = cs.length then [chunk]
      else stripCRChars chunk :: strLinesGo fuel (cs.drop (chunk.length + 1))

/-- Rust `str::lines` of the decompressed NDJSON text. -/
def rustStrLines (s : String) : List String :=
  (strLinesGo s.data.length s.data).map fun cs => ⟨cs⟩

/-- Rust's `collect::<Result<Vec<_>, _>>()`: the first error aborts the
whole collection, otherwise all values are kept in order. -/
def collectResults {ε α : Type _} : List (Except ε α) → Except ε (List α)
  | [] => .ok []
  | .error e :: _ => .error e
  | .ok a :: rest =>
    match collectResults rest with
    | .error e => .error e
    | .ok vs => .ok (a :: vs)

/-- Modelled from the spec: a `serde_json` parse error is converted by
`ServerError::from` into a storage error — a sticky problem at the server
layer (§7: any malformed-content failure is a storage/sticky error).  The
`From<serde_json::Error>` impl lives outside the examined sources. -/
def serverErrorFromJson (msg : String) : ServerError :=
  .stickyProblem ⟨.serverLayer, msg⟩

/-- `read_gzipped_ndjson_from_file` after decompression: split the text on
line boundaries, parse each line independently (`parse` standing for
`serde_json::from_str`), and collect, failing wholesale on the first bad
line. -/
def readGzippedNdjson {α : Type _} (parse : String → Except String α)
    (rawStr : String) : Except ServerError (List α) :=
  collectResults ((rustStrLines rawStr).map fun s => (parse s).mapError serverErrorFromJson)

/-- `LocalIndex::fetch_raw_analysis`: open/read/decompress (outcome passed
in as `opened`), then decode the NDJSON. -/
def fetchRawAnalysis {α : Type _} (opened : Except ServerError String)
    (parse : String → Except String α) : Except ServerError (List α) :=
  match opened with
  | .error e => .error e
  | .ok raw => readGzippedNdjson parse raw

/-- `LocalIndex::perform_query`: always unsupported. -/
def LocalIndex.perform_query (_srv : LocalIndex) (_q : String) : Except ServerError Unit :=
  .error .unsupported

/-! Well-formedness of an index file and of a needle, and the derived
description of `lookup`'s behaviour used by the statements below. -/

/-- Structural well-formedness of the records: no record is empty and none
contains a newline byte. -/
def WFLines (lines : List (List Nat)) : Prop :=
  ∀ l ∈ lines, l ≠ [] ∧ l.contains 10 = false

/-- The chain form of the sortedness invariant: consecutive records compare
`≤` under byte-wise uppercase ordering. -/
def sortedB : List (List Nat) → Bool
  | [] => true
  | [_] => true
  | a :: b :: r => bleb (uppercase a) (uppercase b) && sortedB (b :: r)

/-- Field well-formedness of the records: each has at least two
space-separated fields (contains a space) and is valid UTF-8. -/
def WFFields (lines : List (List Nat)) : Prop :=
  ∀ l ∈ lines, l.contains 32 = true ∧ validUtf8 l = true

/-- A needle of printable ASCII bytes containing no space. -/
def NeedleOK (needle : List Nat) : Prop := ∀ b ∈ needle, 33 ≤ b ∧ b ≤ 126

/-- Membership of a record in the bisected range: at least the uppercased
needle and at most the uppercased needle followed by the sentinel `b'~'`. -/
def inRange (needle l : List Nat) : Bool :=
  bleb (uppercase needle) (uppercase l) && bleb (uppercase l) (uppercase needle ++ [126])

/-- What the result-cap loop keeps: everything when `max_results = 0`
(the break never fires), the first `k` accepted results otherwise. -/
def capResults (k : Nat) (l : List IdentResult) : List IdentResult :=
  if k = 0 then l else l.take k

/-- Helper for writing concrete ASCII byte strings. -/
def strBytes (s : String) : List Nat := s.data.map Char.toNat

example : strBytes "AZ az" = [65, 90, 32, 97, 122] := by decide

example : uppercase (strBytes "a~Z.") = strBytes "A~Z." := by decide

example : bltb (strBytes "FOO A") (strBytes "FOO~") = true := by decide

example : rustLines (joinNL [strBytes "A x", strBytes "B y"]) =
    [strBytes "A x", strBytes "B y"] := by decide

example :
    lookupBuf (joinNL [strBytes "FOO.BAR a", strBytes "FOO:BAR b", strBytes "FOOBAR c"])
      (strBytes "foo") false true 0 (fun s => s) =
    some [⟨strBytes "FOOBAR", strBytes "c"⟩] := by decide

example :
    lookupBuf (joinNL [strBytes "FOO.BAR a", strBytes "FOO:BAR b", strBytes "FOOBAR c"])
      (strBytes "foo") true true 0 (fun s => s) = some [] := by decide

example :
    lookupBuf (joinNL [strBytes "FOO a", strBytes "FOO~B c"]) (strBytes "FOO")
      false true 0 (fun s => s) = some [⟨strBytes "FOO", strBytes "a"⟩] := by decide

/-! Order lemmas for the byte-wise lexicographic comparison. -/

theorem bltb_irrefl (x : List Nat) : bltb x x = false := by
  induction x with
  | nil => rfl
  | cons a xs ih => simp [bltb, ih]

theorem bltb_trans : ∀ {x y z : List Nat},
    bltb x y = true → bltb y z = true → bltb x z = true := by
  intro x
  induction x with
  | nil =>
    intro y z hxy hyz
    cases y with
    | nil => simp [bltb] at hxy
    | cons b ys =>
      cases z with
      | nil => simp [bltb] at hyz
      | cons c zs => simp [bltb]
  | cons a xs ih =>
    intro y z hxy hyz
    cases y with
    | nil => simp [bltb] at hxy
    | cons b ys =>
      cases z with
      | nil => simp [bltb] at hyz
      | cons c zs =>
        simp only [bltb] at hxy hyz ⊢
        by_cases hab : a < b
        · by_cases hbc : b < c
          · simp [Nat.lt_trans hab hbc]
          · by_cases hcb : c < b
            · simp [hbc, hcb] at hyz
            · have hbceq : b = c := by omega
              subst hbceq
              simp [hab]
        · by_cases hba : b < a
          · simp [hab, hba] at hxy
          · have habeq : a = b := by omega
            subst habeq
            simp only [if_neg hab, if_neg hba] at hxy
            by_cases hbc : a < c
            · simp [hbc]
            · by_cases hcb : c < a
              · simp [hbc, hcb] at hyz
              · simp only [if_neg hbc, if_neg hcb] at hyz ⊢
                exact ih hxy hyz

theorem bltb_conn : ∀ {x y : List Nat},
    bltb x y = false → bltb y x = false → x = y := by
  intro x
  induction x with
  | nil =>
    intro y hxy _
    cases y with
    | nil => rfl
    | cons b ys => simp [bltb] at hxy
  | cons a xs ih =>
    intro y hxy hyx
    cases y with
    | nil => simp [bltb] at hyx
    | cons b ys =>
      simp only [bltb] at hxy hyx
      by_cases hab : a < b
      · simp [hab] at hxy
      · by_cases hba : b < a
        · simp [hab, hba] at hyx
        · have : a = b := by omega
          subst this
          simp only [if_neg hab, if_neg hba] at hxy hyx
          rw [ih hxy hyx]

theorem bleb_refl (x : List Nat) : bleb x x = true := by
  simp [bleb, bltb_irrefl]

theorem bleb_iff {x y : List Nat} :
    bleb x y = true ↔ (bltb x y = true ∨ x = y) := by
  constructor
  · intro h
    by_cases hxy : bltb x y = true
    · exact Or.inl hxy
    · refine Or.inr (bltb_conn (by simpa using hxy) ?_)
      simpa [bleb] using h
  · intro h
    rcases h with h | h
    · by_contra hc
      have hyx : bltb y x = true := by
        simpa [bleb] using hc
      have := bltb_trans h hyx
      rw [bltb_irrefl] at this
      exact Bool.false_ne_true this
    · subst h
      exact bleb_refl x

theorem bltb_of_bleb_of_bltb {x y z : List Nat}
    (h1 : bleb x y = true) (h2 : bltb y z = true) : bltb x z = true := by
  rcases bleb_iff.mp h1 with h | h
  · exact bltb_trans h h2
  · subst h; exact h2

theorem bltb_of_bltb_of_bleb {x y z : List Nat}
    (h1 : bltb x y = true) (h2 : bleb y z = true) : bltb x z = true := by
  rcases bleb_iff.mp h2 with h | h
  · exact bltb_trans h1 h
  · subst h; exact h1

theorem bleb_trans {x y z : List Nat}
    (h1 : bleb x y = true) (h2 : bleb y z = true) : bleb x z = true := by
  rcases bleb_iff.mp h1 with h | h
  · exact bleb_iff.mpr (Or.inl (bltb_of_bltb_of_bleb h h2))
  · subst h; exact h2

theorem bltb_append_left : ∀ (a x y : List Nat),
    bltb (a ++ x) (a ++ y) = bltb x y := by
  intro a
  induction a with
  | nil => intro x y; rfl
  | cons c cs ih =>
    intro x y
    simp only [List.cons_append, bltb, Nat.lt_irrefl, if_false]
    exact ih x y

theorem bltb_nil_right (x : List Nat) : bltb x [] = false := by
  cases x <;> rfl

theorem bltb_append_self (x r : List Nat) : bltb (x ++ r) x = false := by
  have h := bltb_append_left x r []
  simpa [bltb_nil_right] using h

theorem bleb_of_append (x r : List Nat) : bleb x (x ++ r) = true := by
  simp [bleb, bltb_append_self]

theorem bltb_snoc (x : List Nat) (c : Nat) : bltb x (x ++ [c]) = true := by
  have h := bltb_append_left x [] [c]
  simpa [bltb] using h

theorem bltb_cons (a b : Nat) (x y : List Nat) :
    bltb (a :: x) (b :: y) =
      if a < b then true else if b < a then false else bltb x y := rfl

theorem between_isPrefixOf : ∀ {n x : List Nat} {c : Nat},
    bleb n x = true → bleb x (n ++ [c]) = true → n.isPrefixOf x = true := by
  intro n
  induction n with
  | nil => intro x c _ _; simp [List.isPrefixOf]
  | cons a ns ih =>
    intro x c h1 h2
    cases x with
    | nil => simp [bleb, bltb] at h1
    | cons b xs =>
      simp only [bleb] at h1 h2
      rw [bltb_cons] at h1
      rw [List.cons_append, bltb_cons] at h2
      by_cases hba : b < a
      · rw [if_pos hba] at h1
        simp at h1
      · rw [if_neg hba] at h1
        by_cases hab : a < b
        · rw [if_pos hab] at h2
          simp at h2
        · rw [if_neg hab] at h1
          rw [if_neg hab, if_neg hba] at h2
          have : a = b := by omega
          subst this
          have h1' : bleb ns xs = true := h1
          have h2' : bleb xs (ns ++ [c]) = true := h2
          show (a == a && ns.isPrefixOf xs) = true
          simp only [beq_self_eq_true, Bool.true_and]
          exact ih h1' h2'

/-! Offsets and byte access inside a newline-terminated file. -/

theorem offAt_nil (i : Nat) : offAt [] i = 0 := by cases i <;> rfl

theorem offAt_zero (ls : List (List Nat)) : offAt ls 0 = 0 := by cases ls <;> rfl

theorem joinNL_length (ls : List (List Nat)) :
    (joinNL ls).length = offAt ls ls.length := by
  induction ls with
  | nil => rfl
  | cons l ls ih =>
    simp only [joinNL, offAt, List.length_append, List.length_cons, ih]
    omega

theorem joinNL_length_cons (l : List Nat) (ls : List (List Nat)) :
    (joinNL (l :: ls)).length = l.length + 1 + (joinNL ls).length := by
  simp [joinNL]; omega

theorem offAt_mono (ls : List (List Nat)) {i j : Nat} (h : i ≤ j) :
    offAt ls i ≤ offAt ls j := by
  induction ls generalizing i j with
  | nil => simp [offAt_nil]
  | cons l ls ih =>
    cases i with
    | zero => cases j with
      | zero => exact le_refl _
      | succ j => simp [offAt]
    | succ i =>
      cases j with
      | zero => omega
      | succ j =>
        simp only [offAt]
        have := ih (Nat.succ_le_succ_iff.mp h)
        omega

theorem offAt_succ (ls : List (List Nat)) {i : Nat} (hi : i < ls.length) :
    offAt ls (i + 1) = offAt ls i + ls[i].length + 1 := by
  induction ls generalizing i with
  | nil => simp at hi
  | cons l ls ih =>
    cases i with
    | zero => simp [offAt]
    | succ i =>
      simp only [offAt, List.getElem_cons_succ]
      have := ih (Nat.lt_of_succ_lt_succ hi)
      omega

theorem offAt_clip (ls : List (List Nat)) {i : Nat} (h : ls.length ≤ i) :
    offAt ls i = offAt ls ls.length := by
  induction ls generalizing i with
  | nil => simp [offAt_nil]
  | cons l ls ih =>
    cases i with
    | zero => simp at h
    | succ i =>
      simp only [offAt, List.length_cons]
      have := ih (Nat.succ_le_succ_iff.mp h)
      omega

theorem offAt_le_length (ls : List (List Nat)) (i : Nat) :
    offAt ls i ≤ (joinNL ls).length := by
  rw [joinNL_length]
  rcases Nat.le_total i ls.length with h | h
  · exact offAt_mono ls h
  · rw [offAt_clip ls h]

theorem joinNL_drop_offAt (ls : List (List Nat)) :
    ∀ i, (joinNL ls).drop (offAt ls i) = joinNL (ls.drop i) := by
  induction ls with
  | nil => intro i; simp [joinNL, offAt_nil]
  | cons l ls ih =>
    intro i
    cases i with
    | zero => rfl
    | succ i =>
      simp only [offAt, joinNL, List.drop_succ_cons]
      have h2 : l ++ 10 :: joinNL ls = (l ++ [10]) ++ joinNL ls := by simp
      have h3 : l.length + 1 + offAt ls i = (l ++ [10]).length + offAt ls i := by
        simp
      rw [h2, h3, List.drop_append]
      exact ih i

theorem joinNL_getD_shift (ls : List (List Nat)) (i j : Nat) :
    (joinNL ls).getD (offAt ls i + j) 0 = (joinNL (ls.drop i)).getD j 0 := by
  rw [List.getD_eq_getElem?_getD, List.getD_eq_getElem?_getD,
    ← List.getElem?_drop, joinNL_drop_offAt]

theorem joinNL_getD_inner (ls : List (List Nat)) {i : Nat} (hi : i < ls.length)
    {j : Nat} (hj : j < ls[i].length) :
    (joinNL ls).getD (offAt ls i + j) 0 = ls[i].getD j 0 := by
  rw [joinNL_getD_shift, List.drop_eq_getElem_cons hi]
  simp only [joinNL]
  rw [List.getD_eq_getElem?_getD, List.getD_eq_getElem?_getD,
    List.getElem?_append_left hj]

theorem joinNL_getD_nl (ls : List (List Nat)) {i : Nat} (hi : i < ls.length) :
    (joinNL ls).getD (offAt ls i + ls[i].length) 0 = 10 := by
  rw [joinNL_getD_shift, List.drop_eq_getElem_cons hi]
  simp only [joinNL]
  rw [List.getD_eq_getElem?_getD, List.getElem?_append_right (le_refl _)]
  simp

theorem pos_decomp (ls : List (List Nat)) :
    ∀ pos, pos < (joinNL ls).length →
      ∃ i, ∃ _ : i < ls.length, offAt ls i ≤ pos ∧ pos < offAt ls (i + 1) := by
  induction ls with
  | nil => intro pos h; simp [joinNL] at h
  | cons l ls ih =>
    intro pos h
    by_cases hp : pos < l.length + 1
    · exact ⟨0, by simp, by simp [offAt], by simpa [offAt, offAt_nil] using hp⟩
    · push_neg at hp
      rw [joinNL_length_cons] at h
      obtain ⟨i, hi, hlo, hhi⟩ := ih (pos - (l.length + 1)) (by omega)
      refine ⟨i + 1, by simpa using Nat.succ_lt_succ hi, ?_, ?_⟩
      · simp only [offAt]; omega
      · simp only [offAt]; omega

/-! Characterisations of the two boundary scans of `get_line`. -/

theorem scanBack_le (bytes : List Nat) (p : Nat) : scanBack bytes p ≤ p := by
  induction p with
  | zero => exact le_refl _
  | succ s ih =>
    simp only [scanBack]
    split
    · exact le_refl _
    · omega

theorem scanBack_stop (bytes : List Nat) (p : Nat) :
    scanBack bytes p = 0 ∨ bytes.getD (scanBack bytes p - 1) 0 = 10 := by
  induction p with
  | zero => exact Or.inl rfl
  | succ s ih =>
    simp only [scanBack]
    split
    · right
      simpa using ‹bytes.getD s 0 = 10›
    · exact ih

theorem scanBack_no_nl (bytes : List Nat) (p : Nat) :
    ∀ q, scanBack bytes p ≤ q → q < p → bytes.getD q 0 ≠ 10 := by
  induction p with
  | zero => intro q _ hq; omega
  | succ s ih =>
    intro q hq1 hq2
    simp only [scanBack] at hq1
    by_cases hb : bytes.getD s 0 = 10
    · rw [if_pos hb] at hq1
      omega
    · rw [if_neg hb] at hq1
      rcases Nat.lt_or_ge q s with h | h
      · exact ih q hq1 h
      · have : q = s := by omega
        subst this
        exact hb

theorem scanBack_unique (bytes : List Nat) (p : Nat) {b : Nat}
    (hb : b ≤ p) (hstop : b = 0 ∨ bytes.getD (b - 1) 0 = 10)
    (hno : ∀ q, b ≤ q → q < p → bytes.getD q 0 ≠ 10) :
    scanBack bytes p = b := by
  rcases Nat.lt_trichotomy (scanBack bytes p) b with h | h | h
  · exfalso
    rcases hstop with h0 | hnl
    · omega
    · exact scanBack_no_nl bytes p (b - 1) (by omega) (by omega) hnl
  · exact h
  · exfalso
    rcases scanBack_stop bytes p with h0 | hnl
    · omega
    · exact hno (scanBack bytes p - 1) (by omega) (by have := scanBack_le bytes p; omega) hnl

theorem scanFwdGo_spec (bytes : List Nat) :
    ∀ fuel e, e + fuel = bytes.length →
      e ≤ scanFwdGo bytes fuel e ∧
      scanFwdGo bytes fuel e ≤ bytes.length ∧
      (scanFwdGo bytes fuel e = bytes.length ∨ bytes.getD (scanFwdGo bytes fuel e) 0 = 10) ∧
      (∀ q, e ≤ q → q < scanFwdGo bytes fuel e → bytes.getD q 0 ≠ 10) := by
  intro fuel
  induction fuel with
  | zero =>
    intro e he
    simp only [scanFwdGo]
    exact ⟨le_refl _, by omega, Or.inl (by omega), by intro q h1 h2; omega⟩
  | succ r ih =>
    intro e he
    simp only [scanFwdGo]
    by_cases hb : bytes.getD e 0 = 10
    · rw [if_pos hb]
      exact ⟨le_refl _, by omega, Or.inr hb, by intro q h1 h2; omega⟩
    · rw [if_neg hb]
      obtain ⟨h1, h2, h3, h4⟩ := ih (e + 1) (by omega)
      refine ⟨by omega, h2, h3, ?_⟩
      intro q hq1 hq2
      rcases Nat.lt_or_ge q (e + 1) with h | h
      · have : q = e := by omega
        subst this
        exact hb
      · exact h4 q h hq2

theorem scanFwd_spec (bytes : List Nat) {e : Nat} (he : e ≤ bytes.length) :
    e ≤ scanFwd bytes e ∧
    scanFwd bytes e ≤ bytes.length ∧
    (scanFwd bytes e = bytes.length ∨ bytes.getD (scanFwd bytes e) 0 = 10) ∧
    (∀ q, e ≤ q → q < scanFwd bytes e → bytes.getD q 0 ≠ 10) :=
  scanFwdGo_spec bytes (bytes.length - e) e (by omega)

theorem scanFwd_unique (bytes : List Nat) {e f : Nat} (he : e ≤ bytes.length)
    (hef : e ≤ f) (hf : f ≤ bytes.length)
    (hstop : f = bytes.length ∨ bytes.getD f 0 = 10)
    (hno : ∀ q, e ≤ q → q < f → bytes.getD q 0 ≠ 10) :
    scanFwd bytes e = f := by
  obtain ⟨h1, h2, h3, h4⟩ := scanFwd_spec bytes he
  rcases Nat.lt_trichotomy (scanFwd bytes e) f with h | h | h
  · exfalso
    rcases h3 with hl | hnl
    · omega
    · exact hno (scanFwd bytes e) h1 h hnl
  · exact h
  · exfalso
    rcases hstop with hl | hnl
    · omega
    · exact h4 f hef h hnl

/-! `get_line` returns exactly the record containing the probed position. -/

theorem wf_inner_ne_nl {ls : List (List Nat)} (hwf : WFLines ls) {i : Nat}
    (hi : i < ls.length) {j : Nat} (hj : j < ls[i].length) :
    ls[i].getD j 0 ≠ 10 := by
  have hmem : ls[i] ∈ ls := List.getElem_mem hi
  have hc := (hwf _ hmem).2
  intro h10
  have hg : ls[i].getD j 0 = ls[i][j] := by
    rw [List.getD_eq_getElem?_getD, List.getElem?_eq_getElem hj]
    rfl
  rw [hg] at h10
  have hin : (10 : Nat) ∈ ls[i] := h10 ▸ List.getElem_mem hj
  simp [List.contains] at hc
  exact hc hin

theorem wf_ne_nil {ls : List (List Nat)} (hwf : WFLines ls) {i : Nat}
    (hi : i < ls.length) : 0 < ls[i].length :=
  List.length_pos.mpr (hwf _ (List.getElem_mem hi)).1

theorem extractLine_eq {ls : List (List Nat)} (hwf : WFLines ls) {i : Nat}
    (hi : i < ls.length) {p : Nat}
    (h1 : offAt ls i ≤ p) (h2 : p < offAt ls i + ls[i].length) :
    extractLine (joinNL ls) p = ls[i] := by
  have hoff1 : offAt ls (i + 1) = offAt ls i + ls[i].length + 1 := offAt_succ ls hi
  have hlen : offAt ls (i + 1) ≤ (joinNL ls).length := offAt_le_length ls (i + 1)
  have hback : scanBack (joinNL ls) p = offAt ls i := by
    apply scanBack_unique _ _ h1
    · cases i with
      | zero => exact Or.inl (offAt_zero ls)
      | succ i' =>
        right
        have hi' : i' < ls.length := Nat.lt_of_succ_lt hi
        have : offAt ls (i' + 1) = offAt ls i' + ls[i'].length + 1 := offAt_succ ls hi'
        have hrw : offAt ls (i' + 1) - 1 = offAt ls i' + ls[i'].length := by omega
        rw [hrw]
        exact joinNL_getD_nl ls hi'
    · intro q hq1 hq2
      have hq : q = offAt ls i + (q - offAt ls i) := by omega
      rw [hq, joinNL_getD_inner ls hi (by omega)]
      exact wf_inner_ne_nl hwf hi (by omega)
  have hfwd : scanFwd (joinNL ls) p = offAt ls i + ls[i].length := by
    apply scanFwd_unique _ (by omega) (by omega) (by omega)
    · exact Or.inr (joinNL_getD_nl ls hi)
    · intro q hq1 hq2
      have hq : q = offAt ls i + (q - offAt ls i) := by omega
      rw [hq, joinNL_getD_inner ls hi (by omega)]
      exact wf_inner_ne_nl hwf hi (by omega)
  unfold extractLine
  rw [hback, hfwd]
  rw [← List.take_drop]
  rw [joinNL_drop_offAt, List.drop_eq_getElem_cons hi]
  simp only [joinNL]
  exact List.take_left' rfl

theorem getLine_eq {ls : List (List Nat)} (hwf : WFLines ls) {i : Nat}
    (hi : i < ls.length) {pos : Nat}
    (hlo : offAt ls i ≤ pos) (hhi : pos < offAt ls (i + 1)) :
    getLine (joinNL ls) pos = some ls[i] := by
  have hoff1 : offAt ls (i + 1) = offAt ls i + ls[i].length + 1 := offAt_succ ls hi
  have hlen : offAt ls (i + 1) ≤ (joinNL ls).length := offAt_le_length ls (i + 1)
  have hpos : pos < (joinNL ls).length := by omega
  unfold getLine
  rw [if_pos hpos]
  by_cases hb : (joinNL ls).getD pos 0 = 10
  · have hpe : pos = offAt ls i + ls[i].length := by
      by_contra hne
      have hlt : pos < offAt ls i + ls[i].length := by omega
      have hq : pos = offAt ls i + (pos - offAt ls i) := by omega
      rw [hq, joinNL_getD_inner ls hi (by omega)] at hb
      exact wf_inner_ne_nl hwf hi (by omega) hb
    rw [if_pos hb]
    have hlp : 0 < ls[i].length := wf_ne_nil hwf hi
    have hpos0 : pos ≠ 0 := by omega
    rw [if_neg hpos0]
    congr 1
    exact extractLine_eq hwf hi (by omega) (by omega)
  · rw [if_neg hb]
    congr 1
    apply extractLine_eq hwf hi hlo
    by_contra hge
    have hpe : pos = offAt ls i + ls[i].length := by omega
    rw [hpe, joinNL_getD_nl ls hi] at hb
    exact hb rfl

/-! Sortedness, prefix-closed predicates, and the binary-search invariant. -/

theorem sortedB_pairwise : ∀ {ls : List (List Nat)}, sortedB ls = true →
    ls.Pairwise (fun a b => bleb (uppercase a) (uppercase b) = true) := by
  intro ls
  induction ls with
  | nil => intro _; exact List.Pairwise.nil
  | cons a ls ih =>
    intro h
    cases ls with
    | nil => simp
    | cons b r =>
      simp only [sortedB, Bool.and_eq_true] at h
      have hp := ih h.2
      refine List.Pairwise.cons ?_ hp
      intro x hx
      rcases List.mem_cons.mp hx with rfl | hxr
      · exact h.1
      · exact bleb_trans h.1 ((List.pairwise_cons.mp hp).1 x hxr)

theorem countP_downward {ls : List (List Nat)} {p : List Nat → Bool}
    (hsort : ls.Pairwise (fun a b => bleb (uppercase a) (uppercase b) = true))
    (hdc : ∀ a b, bleb (uppercase a) (uppercase b) = true → p b = true → p a = true) :
    ∀ i (hi : i < ls.length), (p ls[i] = true ↔ i < ls.countP p) := by
  induction ls with
  | nil => intro i hi; simp at hi
  | cons a ls ih =>
    intro i hi
    obtain ⟨hall, hpair⟩ := List.pairwise_cons.mp hsort
    by_cases hpa : p a = true
    · rw [List.countP_cons_of_pos _ _ hpa]
      cases i with
      | zero => simpa using hpa
      | succ i =>
        have hi' : i < ls.length := by simpa using hi
        have := ih hpair i hi'
        simpa [Nat.succ_lt_succ_iff] using this
    · have hnone : ∀ x ∈ ls, p x = false := by
        intro x hx
        by_contra hpx
        exact hpa (hdc a x (hall x hx) (by simpa using hpx))
      rw [List.countP_cons_of_neg _ _ (by simpa using hpa)]
      have hzero : ls.countP p = 0 := by
        rw [List.countP_eq_zero]
        intro x hx
        simp [hnone x hx]
      rw [hzero]
      cases i with
      | zero => simpa using hpa
      | succ i =>
        have hi' : i < ls.length := by simpa using hi
        have hx : ls[i] ∈ ls := List.getElem_mem hi'
        simp [hnone _ hx]

theorem filter_between {α : Type _} : ∀ (ls : List α) (P : α → Bool) (m₁ m₂ : Nat),
    m₁ ≤ m₂ → m₂ ≤ ls.length →
    (∀ i (hi : i < ls.length), (P ls[i] = true ↔ (m₁ ≤ i ∧ i < m₂))) →
    ls.filter P = (ls.take m₂).drop m₁ := by
  intro ls
  induction ls with
  | nil => intro P m₁ m₂ _ _ _; simp
  | cons a ls ih =>
    intro P m₁ m₂ hm hm2 hchar
    cases m₁ with
    | zero =>
      cases m₂ with
      | zero =>
        have hnone : ∀ x ∈ a :: ls, P x = false := by
          intro x hx
          obtain ⟨i, hi, rfl⟩ := List.getElem_of_mem hx
          by_contra hpx
          have := (hchar i hi).mp (by simpa using hpx)
          omega
        simp only [List.take_zero, List.drop_zero]
        rw [List.filter_eq_nil_iff]
        intro x hx
        simp [hnone x hx]
      | succ n =>
        have hpa : P a = true := (hchar 0 (by simp)).mpr (by omega)
        rw [List.filter_cons_of_pos hpa]
        simp only [List.take_succ_cons, List.drop_zero]
        rw [ih P 0 n (by omega) (by simpa using hm2) ?_]
        · simp
        · intro i hi
          have := hchar (i + 1) (by simpa using Nat.succ_lt_succ hi)
          simpa [Nat.succ_lt_succ_iff] using this
    | succ j =>
      cases m₂ with
      | zero => omega
      | succ n =>
        have hpa : P a = false := by
          by_contra hpx
          have := (hchar 0 (by simp)).mp (by simpa using hpx)
          omega
        rw [List.filter_cons_of_neg (by simp [hpa])]
        simp only [List.take_succ_cons, List.drop_succ_cons]
        rw [ih P j n (by omega) (by simpa using hm2) ?_]
        intro i hi
        have := hchar (i + 1) (by simpa using Nat.succ_lt_succ hi)
        simpa [Nat.succ_lt_succ_iff] using this

theorem bisectGo_eq (bytes key : List Nat) (ub : Bool) (N : Nat)
    (hprobe : ∀ pos, pos < bytes.length → ∃ line, getLine bytes pos = some line ∧
      ((bltb (uppercase line) key || (ub && uppercase line == key)) = true ↔ pos < N)) :
    ∀ fuel first count, count + 1 ≤ fuel → first + count ≤ bytes.length →
      first ≤ N → N ≤ first + count →
      bisectGo bytes key ub fuel first count = some N := by
  intro fuel
  induction fuel with
  | zero => intro first count hfuel _ _ _; omega
  | succ f ih =>
    intro first count hfuel hlen hfn hnc
    simp only [bisectGo]
    by_cases hc : count = 0
    · rw [if_pos hc]
      have : first = N := by omega
      rw [this]
    · rw [if_neg hc]
      have hstep : count / 2 < count := Nat.div_lt_self (by omega) (by omega)
      have hposlt : first + count / 2 < bytes.length := by omega
      obtain ⟨line, hgl, hiff⟩ := hprobe (first + count / 2) hposlt
      simp only [hgl]
      by_cases hcond : (bltb (uppercase line) key || (ub && uppercase line == key)) = true
      · rw [if_pos hcond]
        have hposN : first + count / 2 < N := hiff.mp hcond
        exact ih (first + count / 2 + 1) (count - (count / 2 + 1))
          (by omega) (by omega) (by omega) (by omega)
      · rw [if_neg hcond]
        have hposN : N ≤ first + count / 2 := by
          by_contra hlt
          exact hcond (hiff.mpr (by omega))
        exact ih first (count / 2) (by omega) (by omega) (by omega) (by omega)

/-- The boolean test `IdentMap::bisect` applies to each probed record. -/
def bisPred (key : List Nat) (ub : Bool) (l : List Nat) : Bool :=
  bltb (uppercase l) key || (ub && uppercase l == key)

theorem bisPred_downward (key : List Nat) (ub : Bool) (a b : List Nat)
    (hab : bleb (uppercase a) (uppercase b) = true) (hb : bisPred key ub b = true) :
    bisPred key ub a = true := by
  simp only [bisPred, Bool.or_eq_true, Bool.and_eq_true, beq_iff_eq] at hb ⊢
  rcases hb with hlt | ⟨hub, heq⟩
  · exact Or.inl (bltb_of_bleb_of_bltb hab hlt)
  · rw [heq] at hab
    rcases bleb_iff.mp hab with hlt | heq2
    · exact Or.inl hlt
    · exact Or.inr ⟨hub, heq2⟩

theorem bisect_joinNL {ls : List (List Nat)} (hwf : WFLines ls)
    (hsort : sortedB ls = true) (needle : List Nat) (ub : Bool) :
    bisect (joinNL ls) needle ub =
      some (offAt ls (ls.countP
        (bisPred (if ub then uppercase needle ++ [126] else uppercase needle) ub))) := by
  set key := if ub then uppercase needle ++ [126] else uppercase needle with hkey
  set m := ls.countP (bisPred key ub) with hm
  have hmlen : m ≤ ls.length := List.countP_le_length _
  have hN : offAt ls m ≤ (joinNL ls).length := offAt_le_length ls m
  have hpair := sortedB_pairwise hsort
  have hchar := countP_downward hpair (bisPred_downward key ub)
  unfold bisect
  rw [← hkey]
  apply bisectGo_eq _ _ _ _ ?_ _ _ _ (by omega) (by omega) (by omega) (by omega)
  intro pos hpos
  obtain ⟨i, hi, hlo, hhi⟩ := pos_decomp ls pos hpos
  refine ⟨ls[i], getLine_eq hwf hi hlo hhi, ?_⟩
  have hPi := hchar i hi
  constructor
  · intro hcond
    have him : i < m := hPi.mp hcond
    have : offAt ls (i + 1) ≤ offAt ls m := offAt_mono ls him
    omega
  · intro hposm
    by_contra hcond
    have him : ¬ i < m := fun h => hcond (hPi.mpr h)
    have : offAt ls m ≤ offAt ls i := offAt_mono ls (by omega)
    omega

/-! Specialising the two bisections and extracting the sliced records. -/

theorem bltb_or_beq_eq_bleb (x y : List Nat) : (bltb x y || x == y) = bleb x y := by
  by_cases h : x = y
  · simp [h, bltb_irrefl, bleb_refl]
  · have hbe : (x == y) = false := by simpa using h
    rw [hbe, Bool.or_false]
    by_cases hlt : bltb x y = true
    · rw [hlt, (bleb_iff.mpr (Or.inl hlt)).symm]
    · have hxy : bltb x y = false := by simpa using hlt
      have hyx : bltb y x = true := by
        by_contra hc
        exact h (bltb_conn hxy (by simpa using hc))
      simp [hxy, bleb, hyx]

/-- Number of records strictly below the uppercased needle. -/
def lowCount (needle : List Nat) (ls : List (List Nat)) : Nat :=
  ls.countP fun l => bltb (uppercase l) (uppercase needle)

/-- Number of records at or below the uppercased needle extended by `b'~'`. -/
def upCount (needle : List Nat) (ls : List (List Nat)) : Nat :=
  ls.countP fun l => bleb (uppercase l) (uppercase needle ++ [126])

theorem bisect_low {ls : List (List Nat)} (hwf : WFLines ls)
    (hsort : sortedB ls = true) (needle : List Nat) :
    bisect (joinNL ls) needle false = some (offAt ls (lowCount needle ls)) := by
  rw [bisect_joinNL hwf hsort needle false]
  congr 1
  apply congrArg
  apply List.countP_congr
  intro x _
  simp [bisPred, lowCount]

theorem bisect_up {ls : List (List Nat)} (hwf : WFLines ls)
    (hsort : sortedB ls = true) (needle : List Nat) :
    bisect (joinNL ls) needle true = some (offAt ls (upCount needle ls)) := by
  rw [bisect_joinNL hwf hsort needle true]
  congr 1
  apply congrArg
  apply List.countP_congr
  intro x _
  have h := bltb_or_beq_eq_bleb (uppercase x) (uppercase needle ++ [126])
  simp only [bisPred, Bool.true_and, if_true]
  rw [h]

theorem bltb_needle_le_sentinel {x n : List Nat} (h : bltb x n = true) :
    bleb x (n ++ [126]) = true := by
  by_contra hc
  have hgt : bltb (n ++ [126]) x = true := by
    rcases Bool.eq_false_or_eq_true (bltb (n ++ [126]) x) with hb | hb
    · exact hb
    · exact absurd (by simp [bleb, hb]) hc
  have h1 : bltb (n ++ [126]) n = true := bltb_trans hgt h
  have h2 : bltb n (n ++ [126]) = true := bltb_snoc n 126
  have := bltb_trans h1 h2
  rw [bltb_irrefl] at this
  exact Bool.false_ne_true this

theorem lowCount_le_upCount (needle : List Nat) (ls : List (List Nat)) :
    lowCount needle ls ≤ upCount needle ls := by
  apply List.countP_mono_left
  intro x _ h
  exact bltb_needle_le_sentinel h

theorem inRange_iff (needle l : List Nat) :
    inRange needle l = true ↔
      ((bltb (uppercase l) (uppercase needle)) = false ∧
        bleb (uppercase l) (uppercase needle ++ [126]) = true) := by
  simp only [inRange, Bool.and_eq_true, bleb, Bool.not_eq_true']

theorem middle_eq_filter {ls : List (List Nat)} (hsort : sortedB ls = true)
    (needle : List Nat) :
    (ls.take (upCount needle ls)).drop (lowCount needle ls) =
      ls.filter (inRange needle) := by
  have hpair := sortedB_pairwise hsort
  have hlowchar : ∀ i (hi : i < ls.length),
      (bltb (uppercase ls[i]) (uppercase needle) = true ↔ i < lowCount needle ls) :=
    countP_downward hpair (fun a b hab hb => bltb_of_bleb_of_bltb hab hb)
  have hupchar : ∀ i (hi : i < ls.length),
      (bleb (uppercase ls[i]) (uppercase needle ++ [126]) = true ↔ i < upCount needle ls) :=
    countP_downward hpair (fun a b hab hb => bleb_trans hab hb)
  refine (filter_between ls (inRange needle) (lowCount needle ls) (upCount needle ls)
    (lowCount_le_upCount needle ls) (List.countP_le_length _) ?_).symm
  intro i hi
  rw [inRange_iff]
  constructor
  · intro ⟨hlow, hup⟩
    constructor
    · by_contra hc
      have hthis := (hlowchar i hi).mpr (by omega)
      rw [hlow] at hthis
      exact Bool.false_ne_true hthis
    · exact (hupchar i hi).mp hup
  · intro ⟨h1, h2⟩
    constructor
    · by_contra hc
      have := (hlowchar i hi).mp (by simpa using hc)
      omega
    · exact (hupchar i hi).mpr h2

theorem joinNL_take_offAt (ls : List (List Nat)) :
    ∀ i, (joinNL ls).take (offAt ls i) = joinNL (ls.take i) := by
  induction ls with
  | nil => intro i; simp [joinNL, offAt_nil]
  | cons l ls ih =>
    intro i
    cases i with
    | zero => simp [offAt_zero, joinNL]
    | succ i =>
      simp only [offAt, List.take_succ_cons, joinNL]
      have h2 : l ++ 10 :: joinNL ls = (l ++ [10]) ++ joinNL ls := by simp
      have h3 : l.length + 1 + offAt ls i = (l ++ [10]).length + offAt ls i := by simp
      rw [h2, h3, List.take_append, ih i]
      simp

theorem offAt_take (ls : List (List Nat)) :
    ∀ i j, i ≤ j → offAt (ls.take j) i = offAt ls i := by
  induction ls with
  | nil => intro i j _; simp
  | cons l ls ih =>
    intro i j hij
    cases j with
    | zero =>
      have : i = 0 := by omega
      subst this
      simp [offAt_zero]
    | succ j =>
      cases i with
      | zero => simp [offAt_zero]
      | succ i =>
        simp only [List.take_succ_cons, offAt]
        rw [ih i j (by omega)]

theorem slice_eq_middle (ls : List (List Nat)) {m₁ m₂ : Nat}
    (hm : m₁ ≤ m₂) :
    ((joinNL ls).take (offAt ls m₂)).drop (offAt ls m₁) =
      joinNL ((ls.take m₂).drop m₁) := by
  rw [joinNL_take_offAt, ← offAt_take ls m₁ m₂ hm, joinNL_drop_offAt]

/-! Recovering the records from the sliced bytes, and UTF-8 facts. -/

theorem not_mem_of_contains_false {l : List Nat} {b : Nat}
    (h : l.contains b = false) : ¬ b ∈ l := by
  simpa [List.contains] using h

theorem mem_of_contains_true {l : List Nat} {b : Nat}
    (h : l.contains b = true) : b ∈ l := by
  simpa [List.contains] using h

theorem contains_true_of_mem {l : List Nat} {b : Nat}
    (h : b ∈ l) : l.contains b = true := by
  simpa [List.contains] using h

theorem takeWhile_append_stop {p : Nat → Bool} :
    ∀ (l : List Nat) {x : Nat} (r : List Nat),
      (∀ b ∈ l, p b = true) → p x = false → (l ++ x :: r).takeWhile p = l := by
  intro l
  induction l with
  | nil =>
    intro x r _ hx
    simp [List.takeWhile_cons, hx]
  | cons a l ih =>
    intro x r hall hx
    have ha : p a = true := hall a (by simp)
    simp only [List.cons_append, List.takeWhile_cons, ha, if_true]
    rw [ih r (fun b hb => hall b (by simp [hb])) hx]

theorem rustLinesGo_succ (fuel : Nat) (bs : List Nat) :
    rustLinesGo (fuel + 1) bs =
      if bs.isEmpty then [] else
        (bs.takeWhile (fun b => !(b == 10))) ::
          rustLinesGo fuel (bs.drop ((bs.takeWhile (fun b => !(b == 10))).length + 1)) := rfl

theorem validUtf8_cons (b : Nat) (r : List Nat) :
    validUtf8 (b :: r) =
      if b < 128 then validUtf8 r
      else if b < 194 then false
      else if b < 224 then
        decide (1 ≤ r.length) && isCont (r.getD 0 0) && validUtf8Go r.length (r.drop 1)
      else if b < 240 then
        decide (2 ≤ r.length) &&
          (if b = 224 then decide (160 ≤ r.getD 0 0) && decide (r.getD 0 0 < 192)
           else if b = 237 then decide (128 ≤ r.getD 0 0) && decide (r.getD 0 0 < 160)
           else isCont (r.getD 0 0)) &&
          isCont (r.getD 1 0) && validUtf8Go r.length (r.drop 2)
      else if b < 245 then
        decide (3 ≤ r.length) &&
          (if b = 240 then decide (144 ≤ r.getD 0 0) && decide (r.getD 0 0 < 192)
           else if b = 244 then decide (128 ≤ r.getD 0 0) && decide (r.getD 0 0 < 144)
           else isCont (r.getD 0 0)) &&
          isCont (r.getD 1 0) && isCont (r.getD 2 0) && validUtf8Go r.length (r.drop 3)
      else false := rfl

theorem rustLinesGo_joinNL : ∀ (ls : List (List Nat)) (fuel : Nat),
    (joinNL ls).length ≤ fuel → (∀ l ∈ ls, l.contains 10 = false) →
    rustLinesGo fuel (joinNL ls) = ls := by
  intro ls
  induction ls with
  | nil =>
    intro fuel _ _
    cases fuel <;> simp [joinNL, rustLinesGo]
  | cons l ls ih =>
    intro fuel hfuel h10
    have hlc := joinNL_length_cons l ls
    cases fuel with
    | zero => omega
    | succ f =>
      have hne : (l ++ 10 :: joinNL ls).isEmpty = false := by
        cases l <;> simp [List.isEmpty]
      have hchunk : (l ++ 10 :: joinNL ls).takeWhile (fun b => !(b == 10)) = l := by
        apply takeWhile_append_stop l (joinNL ls) ?_ (by simp)
        intro b hb
        have h10l : ¬ (10:Nat) ∈ l := not_mem_of_contains_false (h10 l (by simp))
        have hbne : b ≠ 10 := fun hbe => h10l (hbe ▸ hb)
        simp [hbne]
      show rustLinesGo (f + 1) (l ++ 10 :: joinNL ls) = l :: ls
      rw [rustLinesGo_succ]
      rw [if_neg (by simp [hne]), hchunk]
      have hdrop : (l ++ 10 :: joinNL ls).drop (l.length + 1) = joinNL ls := by
        have e1 : l ++ 10 :: joinNL ls = (l ++ [10]) ++ joinNL ls := by simp
        have e2 : l.length + 1 = (l ++ [10]).length + 0 := by simp
        rw [e1, e2, List.drop_append]
        rfl
      rw [hdrop, ih f (by omega) (fun x hx => h10 x (by simp [hx]))]

theorem rustLines_joinNL {ls : List (List Nat)}
    (h10 : ∀ l ∈ ls, l.contains 10 = false) : rustLines (joinNL ls) = ls :=
  rustLinesGo_joinNL ls (joinNL ls).length (le_refl _) h10

theorem validUtf8_head_not_cont {b : Nat} {r : List Nat}
    (h : validUtf8 (b :: r) = true) : isCont b = false := by
  by_cases h1 : b < 128
  · simp only [isCont, Bool.and_eq_false_iff, decide_eq_false_iff_not]
    left
    omega
  · by_cases h2 : b < 194
    · exfalso
      rw [validUtf8_cons, if_neg h1, if_pos h2] at h
      exact Bool.false_ne_true h
    · simp only [isCont, Bool.and_eq_false_iff, decide_eq_false_iff_not]
      right
      omega

theorem validUtf8_tail {b : Nat} {r : List Nat}
    (h : validUtf8 (b :: r) = true) (hb : b < 128) : validUtf8 r = true := by
  rwa [validUtf8_cons, if_pos hb] at h

theorem validUtf8_ascii_boundary : ∀ (k : Nat) (s : List Nat),
    validUtf8 s = true → (∀ j, j < k → s.getD j 0 < 128) → k < s.length →
    isCont (s.getD k 0) = false := by
  intro k
  induction k with
  | zero =>
    intro s hv _ hk
    cases s with
    | nil => simp at hk
    | cons b r => exact validUtf8_head_not_cont hv
  | succ k ih =>
    intro s hv hj hk
    cases s with
    | nil => simp at hk
    | cons b r =>
      have hb : b < 128 := by
        have := hj 0 (by omega)
        simpa using this
      have hv' : validUtf8 r = true := validUtf8_tail hv hb
      have hj' : ∀ j, j < k → r.getD j 0 < 128 := by
        intro j hjk
        have := hj (j + 1) (by omega)
        simpa using this
      have hk' : k < r.length := by simpa using hk
      simpa using ih r hv' hj' hk'

theorem ascii_validUtf8 : ∀ {l : List Nat}, (∀ b ∈ l, b < 128) → validUtf8 l = true := by
  intro l
  induction l with
  | nil => intro _; rfl
  | cons b r ih =>
    intro h
    rw [validUtf8_cons, if_pos (h b (by simp))]
    exact ih fun x hx => h x (by simp [hx])

theorem isPrefixOf_ex : ∀ {x y : List Nat}, x.isPrefixOf y = true → ∃ t, y = x ++ t := by
  intro x
  induction x with
  | nil => intro y _; exact ⟨y, rfl⟩
  | cons a x ih =>
    intro y h
    cases y with
    | nil => simp [List.isPrefixOf] at h
    | cons b y =>
      simp only [List.isPrefixOf, Bool.and_eq_true, beq_iff_eq] at h
      obtain ⟨t, ht⟩ := ih h.2
      exact ⟨t, by simp [h.1, ht]⟩

theorem append_isPrefixOf (x t : List Nat) : x.isPrefixOf (x ++ t) = true := by
  induction x with
  | nil => simp [List.isPrefixOf]
  | cons a x ih => simp [List.isPrefixOf, ih]

theorem getD_append_left' {x t : List Nat} {j : Nat} (hj : j < x.length) :
    (x ++ t).getD j 0 = x.getD j 0 := by
  rw [List.getD_eq_getElem?_getD, List.getD_eq_getElem?_getD, List.getElem?_append_left hj]

theorem uppercase_getD {l : List Nat} {j : Nat} (hj : j < l.length) :
    (uppercase l).getD j 0 = upByte (l.getD j 0) := by
  simp [uppercase, List.getD_eq_getElem?_getD, List.getElem?_map,
    List.getElem?_eq_getElem hj]

theorem getD_mem {l : List Nat} {j : Nat} (hj : j < l.length) : l.getD j 0 ∈ l := by
  have he : l.getD j 0 = l[j] := by
    simp [List.getD_eq_getElem?_getD, List.getElem?_eq_getElem hj]
  rw [he]
  exact List.getElem_mem hj

theorem upByte_match_ascii {x v : Nat} (hv1 : 33 ≤ v) (hv2 : v ≤ 126)
    (h : upByte x = upByte v) : x < 128 ∧ x ≠ 32 := by
  unfold upByte at h
  split at h <;> split at h <;> omega

theorem stripCR_cases (l : List Nat) :
    stripCR l = l ∨ ∃ y, l = y ++ [13] ∧ stripCR l = y := by
  unfold stripCR
  by_cases h : l.getLast? = some 13
  · right
    obtain ⟨ys, hys⟩ := List.getLast?_eq_some_iff.mp h
    exact ⟨ys, hys, by rw [if_pos h, hys, List.dropLast_concat]⟩
  · left
    rw [if_neg h]

theorem mem_stripCR {l : List Nat} {b : Nat} (hb : b ≠ 13) (h : b ∈ l) :
    b ∈ stripCR l := by
  rcases stripCR_cases l with he | ⟨y, hy, he⟩
  · rwa [he]
  · rw [he]
    rw [hy] at h
    rcases List.mem_append.mp h with h' | h'
    · exact h'
    · simp at h'
      omega

theorem stripCR_getD {l : List Nat} {j : Nat} (hj : j < (stripCR l).length) :
    (stripCR l).getD j 0 = l.getD j 0 := by
  rcases stripCR_cases l with he | ⟨y, hy, he⟩
  · rw [he]
  · rw [he] at hj ⊢
    rw [hy]
    exact (getD_append_left' hj).symm

theorem stripCR_length (l : List Nat) :
    (stripCR l).length = l.length ∨ (stripCR l).length + 1 = l.length := by
  rcases stripCR_cases l with he | ⟨y, hy, he⟩
  · rw [he]; left; rfl
  · rw [he, hy]; right; simp

theorem takeWhile_length_ge {p : Nat → Bool} :
    ∀ (l : List Nat) (k : Nat), k ≤ l.length →
      (∀ j, j < k → p (l.getD j 0) = true) → k ≤ (l.takeWhile p).length := by
  intro l
  induction l with
  | nil => intro k hk _; simpa using hk
  | cons a l ih =>
    intro k hk hall
    cases k with
    | zero => omega
    | succ k =>
      have ha : p a = true := by
        have := hall 0 (by omega)
        simpa using this
      simp only [List.takeWhile_cons, ha, if_true, List.length_cons]
      have := ih k (by simpa using hk) (fun j hj => by
        have := hall (j + 1) (by omega)
        simpa using this)
      omega

theorem takeWhile_getD {p : Nat → Bool} {l : List Nat} {j : Nat}
    (hj : j < (l.takeWhile p).length) :
    (l.takeWhile p).getD j 0 = l.getD j 0 := by
  conv_rhs => rw [← List.takeWhile_append_dropWhile (p := p) (l := l)]
  exact (getD_append_left' hj).symm

/-! No candidate line of a well-formed file can make the scan body panic. -/

theorem chain_isSome {α : Type _} (c₁ c₂ : Bool) (r : α) :
    ∃ o, (if c₁ = true then some (none : Option α)
          else if c₂ = true then some none
          else some (some r)) = some o := by
  cases c₁ <;> cases c₂ <;> exact ⟨_, rfl⟩

theorem processLine_isSome {needle l : List Nat} (hn : NeedleOK needle)
    (h32 : l.contains 32 = true) (hutf : validUtf8 l = true)
    (hrange : inRange needle l = true) (em ic : Bool) (dem : List Nat → List Nat) :
    ∃ o, processLine needle em ic dem l = some o := by
  obtain ⟨hlow, hup⟩ := (inRange_iff needle l).mp hrange
  have hpre : (uppercase needle).isPrefixOf (uppercase l) = true :=
    between_isPrefixOf (by simp [bleb, hlow]) hup
  obtain ⟨t, ht⟩ := isPrefixOf_ex hpre
  have hlen_l : needle.length ≤ l.length := by
    have := congrArg List.length ht
    simp only [uppercase, List.length_map, List.length_append] at this
    omega
  have hbyte : ∀ j, j < needle.length → upByte (l.getD j 0) = upByte (needle.getD j 0) := by
    intro j hj
    have hj2 : j < l.length := lt_of_lt_of_le hj hlen_l
    have e1 : (uppercase l).getD j 0 = upByte (l.getD j 0) := uppercase_getD hj2
    have e2 : (uppercase l).getD j 0 = (uppercase needle).getD j 0 := by
      rw [ht]
      exact getD_append_left' (by simpa [uppercase] using hj)
    rw [e1.symm, e2]
    exact uppercase_getD hj
  have hchars : ∀ j, j < needle.length → l.getD j 0 < 128 ∧ l.getD j 0 ≠ 32 := by
    intro j hj
    have hmem : needle.getD j 0 ∈ needle := getD_mem (lt_of_lt_of_le hj (le_refl _))
    obtain ⟨hv1, hv2⟩ := hn _ hmem
    exact upByte_match_ascii hv1 hv2 (hbyte j hj)
  have hmem32 : (32 : Nat) ∈ l := mem_of_contains_true h32
  have hstrict : needle.length < l.length := by
    obtain ⟨q, hql, hq⟩ := List.getElem_of_mem hmem32
    have hqD : l.getD q 0 = 32 := by
      simp [List.getD_eq_getElem?_getD, List.getElem?_eq_getElem hql, hq]
    rcases Nat.lt_or_ge q needle.length with h | h
    · exact absurd hqD (hchars q h).2
    · omega
  have hline_len : needle.length ≤ (stripCR l).length := by
    rcases stripCR_length l with h | h <;> omega
  have hline_getD : ∀ j, j < (stripCR l).length → (stripCR l).getD j 0 = l.getD j 0 :=
    fun j hj => stripCR_getD hj
  have h32line : (stripCR l).contains 32 = true :=
    contains_true_of_mem (mem_stripCR (by omega) hmem32)
  have hid_len : needle.length ≤ ((stripCR l).takeWhile (fun b => !(b == 32))).length := by
    apply takeWhile_length_ge _ _ hline_len
    intro j hj
    rw [hline_getD j (by omega)]
    have hne32 := (hchars j hj).2
    simp only [Bool.not_eq_true', beq_eq_false_iff_ne, ne_eq]
    exact hne32
  have hbound : charBoundary ((stripCR l).takeWhile (fun b => !(b == 32)))
      needle.length = true := by
    unfold charBoundary
    by_cases h0 : needle.length = 0
    · rw [if_pos h0]
    · rw [if_neg h0]
      by_cases hlt : needle.length < ((stripCR l).takeWhile (fun b => !(b == 32))).length
      · rw [if_pos hlt]
        have htk : ((stripCR l).takeWhile (fun b => !(b == 32))).length ≤
            (stripCR l).length := by
          have := congrArg List.length
            (List.takeWhile_append_dropWhile (p := fun b => !(b == 32)) (l := stripCR l))
          simp only [List.length_append] at this
          omega
        have e1 : ((stripCR l).takeWhile (fun b => !(b == 32))).getD needle.length 0 =
            (stripCR l).getD needle.length 0 := takeWhile_getD hlt
        have e2 : (stripCR l).getD needle.length 0 = l.getD needle.length 0 :=
          hline_getD _ (by omega)
        have hcont : isCont (l.getD needle.length 0) = false :=
          validUtf8_ascii_boundary needle.length l hutf
            (fun j hj => (hchars j hj).1) hstrict
        rw [e1, e2, hcont]
        rfl
      · rw [if_neg hlt]
        have : needle.length = ((stripCR l).takeWhile (fun b => !(b == 32))).length := by
          omega
        simp [this]
  unfold processLine
  rw [hutf]
  simp only [Bool.not_true, Bool.false_eq_true, if_false]
  rw [h32line]
  simp only [Bool.not_true, Bool.false_eq_true, if_false]
  have hcond : (decide (needle.length >
      ((stripCR l).takeWhile (fun b => !(b == 32))).length) ||
      !charBoundary ((stripCR l).takeWhile (fun b => !(b == 32))) needle.length) = false := by
    rw [hbound]
    simp only [Bool.not_true, Bool.or_false]
    simp [Nat.not_lt]
    omega
  rw [hcond]
  simp only [Bool.false_eq_true, if_false]
  exact chain_isSome _ _ _

/-! The scan loop keeps the first `max_results` accepted candidates
(everything when `max_results = 0`), and the master description of
`lookup` on a well-formed file. -/

theorem lookupLoop_eq (needle : List Nat) (em ic : Bool) (k : Nat)
    (dem : List Nat → List Nat) :
    ∀ (cs : List (List Nat)) (acc : List IdentResult),
      (∀ c ∈ cs, ∃ o, processLine needle em ic dem c = some o) →
      (k = 0 ∨ acc.length < k) →
      lookupLoop needle em ic k dem cs acc =
        some (if k = 0 then acc ++ cs.filterMap (matchLine needle em ic dem)
              else acc ++ (cs.filterMap (matchLine needle em ic dem)).take (k - acc.length)) := by
  intro cs
  induction cs with
  | nil =>
    intro acc _ _
    simp [lookupLoop]
  | cons c cs ih =>
    intro acc hall hk
    obtain ⟨o, ho⟩ := hall c (by simp)
    cases o with
    | none =>
      have hm : matchLine needle em ic dem c = none := by simp [matchLine, ho]
      simp only [lookupLoop, ho]
      rw [ih acc (fun x hx => hall x (by simp [hx])) hk]
      rw [List.filterMap_cons_none hm]
    | some r =>
      have hm : matchLine needle em ic dem c = some r := by simp [matchLine, ho]
      simp only [lookupLoop, ho]
      rw [List.filterMap_cons_some hm]
      by_cases hbreak : (acc ++ [r]).length = k
      · rw [if_pos hbreak]
        have hk0 : k ≠ 0 := by simp at hbreak; omega
        rw [if_neg hk0]
        have h1 : k - acc.length = 1 := by simp at hbreak; omega
        rw [h1]
        simp
      · rw [if_neg hbreak]
        have hk' : k = 0 ∨ (acc ++ [r]).length < k := by
          rcases hk with h | h
          · exact Or.inl h
          · right
            simp only [List.length_append, List.length_cons, List.length_nil]
            simp only [List.length_append, List.length_cons, List.length_nil] at hbreak
            omega
        rw [ih (acc ++ [r]) (fun x hx => hall x (by simp [hx])) hk']
        by_cases hk0 : k = 0
        · rw [if_pos hk0, if_pos hk0]
          simp
        · rw [if_neg hk0, if_neg hk0]
          have harith : k - acc.length = (k - (acc ++ [r]).length) + 1 := by
            rcases hk with h | h
            · omega
            · simp only [List.length_append, List.length_cons, List.length_nil]
              simp only [List.length_append, List.length_cons, List.length_nil] at hbreak
              omega
          rw [harith, List.take_succ_cons]
          simp

theorem lookup_master {ls : List (List Nat)} (hwf : WFLines ls)
    (hsort : sortedB ls = true) (hfld : WFFields ls) {needle : List Nat}
    (hn : NeedleOK needle) (em ic : Bool) (k : Nat) (dem : List Nat → List Nat) :
    lookupBuf (joinNL ls) needle em ic k dem =
      some (capResults k ((ls.filter (inRange needle)).filterMap
        (matchLine needle em ic dem))) := by
  have hlow := bisect_low hwf hsort needle
  have hup := bisect_up hwf hsort needle
  have hm12 : lowCount needle ls ≤ upCount needle ls := lowCount_le_upCount needle ls
  have hse : offAt ls (lowCount needle ls) ≤ offAt ls (upCount needle ls) :=
    offAt_mono ls hm12
  have helen : offAt ls (upCount needle ls) ≤ (joinNL ls).length :=
    offAt_le_length ls _
  simp only [lookupBuf, hlow, hup]
  rw [if_pos ⟨hse, helen⟩]
  rw [slice_eq_middle ls hm12, middle_eq_filter hsort needle]
  rw [rustLines_joinNL (fun l hl => (hwf l (List.mem_of_mem_filter hl)).2)]
  rw [lookupLoop_eq needle em ic k dem _ [] ?_ ?_]
  · simp only [List.nil_append, List.length_nil, Nat.sub_zero]
    unfold capResults
    rfl
  · intro c hc
    have hcl : c ∈ ls := List.mem_of_mem_filter hc
    have hcr : inRange needle c = true := List.of_mem_filter hc
    exact processLine_isSome hn (hfld c hcl).1 (hfld c hcl).2 hcr em ic dem
  · cases k with
    | zero => exact Or.inl rfl
    | succ k => right; simp

instance decWFLines (ls : List (List Nat)) : Decidable (WFLines ls) := by
  unfold WFLines
  exact List.decidableBAll _ ls

instance decWFFields (ls : List (List Nat)) : Decidable (WFFields ls) := by
  unfold WFFields
  exact List.decidableBAll _ ls

instance decNeedleOK (needle : List Nat) : Decidable (NeedleOK needle) := by
  unfold NeedleOK
  exact List.decidableBAll _ needle

example :
    WFLines [strBytes "FOO.BAR a", strBytes "FOO:BAR b", strBytes "FOOBAR c"] ∧
    sortedB [strBytes "FOO.BAR a", strBytes "FOO:BAR b", strBytes "FOOBAR c"] = true ∧
    WFFields [strBytes "FOO.BAR a", strBytes "FOO:BAR b", strBytes "FOOBAR c"] ∧
    NeedleOK (strBytes "foo") := by decide

/-! Named projections of a record, as the scan body computes them, and an
unfolded form of `processLine` for case analysis. -/

/-- The id field of a scanned line: everything before the first space of
the `\r`-stripped line. -/
def idOfLine (l : List Nat) : List Nat :=
  (stripCR l).takeWhile (fun b => !(b == 32))

/-- The symbol field of a scanned line: the second space-separated field. -/
def symOfLine (l : List Nat) : List Nat :=
  ((stripCR l).drop ((idOfLine l).length + 1)).takeWhile (fun b => !(b == 32))

/-- The id suffix after the needle, as sliced by `&id[needle.len()..]`. -/
def sufOfLine (needle l : List Nat) : List Nat :=
  (idOfLine l).drop needle.length

theorem processLine_eq (needle : List Nat) (em ic : Bool)
    (dem : List Nat → List Nat) (l : List Nat) :
    processLine needle em ic dem l =
      if (!validUtf8 l) = true then none
      else if (!(stripCR l).contains 32) = true then none
      else if (needle.length > (idOfLine l).length || !charBoundary (idOfLine l) needle.length) = true then none
      else if ((sufOfLine needle l).contains 58 || (sufOfLine needle l).contains 46 ||
               (em && !(sufOfLine needle l).isEmpty)) = true then some none
      else if (!ic && !(needle.isPrefixOf (idOfLine l))) = true then some none
      else some (some ⟨if dem (symOfLine l) = symOfLine l then idOfLine l
                       else dem (symOfLine l), symOfLine l⟩) := rfl

theorem processLine_inv {needle : List Nat} {em ic : Bool}
    {dem : List Nat → List Nat} {l : List Nat} {p : IdentResult}
    (h : processLine needle em ic dem l = some (some p)) :
    (sufOfLine needle l).contains 58 = false ∧
    (sufOfLine needle l).contains 46 = false ∧
    (em = true → (sufOfLine needle l).isEmpty = true) ∧
    (ic = false → needle.isPrefixOf (idOfLine l) = true) ∧
    p = ⟨if dem (symOfLine l) = symOfLine l then idOfLine l
         else dem (symOfLine l), symOfLine l⟩ := by
  rw [processLine_eq] at h
  split at h
  · exact absurd h (by simp)
  · split at h
    · exact absurd h (by simp)
    · split at h
      · exact absurd h (by simp)
      · split at h
        · exact absurd h (by simp)
        · split at h
          · exact absurd h (by simp)
          · rename_i hc3 hc4
            simp only [Bool.or_eq_true, Bool.and_eq_true, not_or,
              Bool.not_eq_true] at hc3 hc4
            obtain ⟨⟨h58, h46⟩, hem⟩ := hc3
            refine ⟨h58, h46, ?_, ?_, ?_⟩
            · intro hemt
              by_contra hne
              exact hem ⟨hemt, by simpa using hne⟩
            · intro hicf
              by_cases hb : needle.isPrefixOf (idOfLine l) = true
              · exact hb
              · exfalso
                have hbf : needle.isPrefixOf (idOfLine l) = false := by
                  rcases Bool.eq_false_or_eq_true (needle.isPrefixOf (idOfLine l)) with h' | h'
                  · exact absurd h' hb
                  · exact h'
                exact hc4 ⟨by simp [hicf], by simp [hbf]⟩
            · have := Option.some.inj (Option.some.inj h)
              exact this.symm

/-- Every returned result of a buffer lookup arises from a record of the
file that lies in the bisected range and passes every filter. -/
theorem lookup_sound {ls : List (List Nat)} (hwf : WFLines ls)
    (hsort : sortedB ls = true) (hfld : WFFields ls) {needle : List Nat}
    (hn : NeedleOK needle) (em ic : Bool) (k : Nat) (dem : List Nat → List Nat)
    {rs : List IdentResult}
    (h : lookupBuf (joinNL ls) needle em ic k dem = some rs) :
    ∀ p ∈ rs, ∃ l, l ∈ ls ∧ inRange needle l = true ∧
      processLine needle em ic dem l = some (some p) := by
  rw [lookup_master hwf hsort hfld hn em ic k dem] at h
  have hrs := (Option.some.inj h).symm
  intro p hp
  rw [hrs] at hp
  have hp2 : p ∈ (ls.filter (inRange needle)).filterMap (matchLine needle em ic dem) := by
    unfold capResults at hp
    split at hp
    · exact hp
    · exact List.take_subset _ _ hp
  obtain ⟨l, hl, hml⟩ := List.mem_filterMap.mp hp2
  refine ⟨l, List.mem_of_mem_filter hl, List.of_mem_filter hl, ?_⟩
  unfold matchLine at hml
  cases hpl : processLine needle em ic dem l with
  | none => rw [hpl] at hml; simp at hml
  | some o =>
    cases o with
    | none => rw [hpl] at hml; simp at hml
    | some r =>
      rw [hpl] at hml
      have hr : r = p := by simpa using hml
      subst hr
      rfl

/-! Claim theorems. -/

/-- C5: constructing an IdentMap never fails the caller — a failed memory
mapping yields the absent state (`mmap = none`), and every subsequent
lookup on that object returns the empty sequence rather than an error. -/
theorem C5_absent_index (msg : String) (needle : List Nat) (em ic : Bool)
    (k : Nat) (dem : List Nat → List Nat) :
    (IdentMap.new (Except.error msg)).mmap = none ∧
    (IdentMap.new (Except.error msg)).lookup needle em ic k dem = some [] :=
  ⟨rfl, rfl⟩

/-- C7 (amended): `make_local_server` fails exactly when the named tree is
absent from the loaded configuration, and then the error carries
`ErrorLayer::BadInput` — a caller/input classification — but is wrapped in
the `ServerError::StickyProblem` variant, the same variant storage errors
use; on success a server instance for the tree is constructed. -/
theorem C7_unknown_tree (fs : String → Except String (List Nat))
    (cr : String → String → Option Unit) (config : Config) (treeName : String) :
    ((config.trees.find? fun p => p.1 == treeName) = none →
      makeLocalServer fs cr config treeName =
        .error (.stickyProblem ⟨.badInput, "bad tree name: " ++ treeName⟩)) ∧
    (∀ tc : String × TreeConfig,
      (config.trees.find? fun p => p.1 == treeName) = some tc →
      ∃ srv : LocalIndex, makeLocalServer fs cr config treeName = .ok srv ∧
        srv.tree_name = treeName ∧ srv.config_paths = tc.2.paths ∧
        srv.ident_map = IdentMap.new (fs (tc.2.paths.index_path ++ "/identifiers"))) ∧
    (∀ e, makeLocalServer fs cr config treeName = .error e →
      (config.trees.find? fun p => p.1 == treeName) = none ∧
      e.isStickyProblem = true ∧
      e = .stickyProblem ⟨.badInput, "bad tree name: " ++ treeName⟩) := by
  cases hf : (config.trees.find? fun p => p.1 == treeName) with
  | none =>
    have hm : makeLocalServer fs cr config treeName =
        .error (.stickyProblem ⟨.badInput, "bad tree name: " ++ treeName⟩) := by
      unfold makeLocalServer
      rw [hf]
      rfl
    refine ⟨fun _ => hm, fun tc htc => absurd htc (by simp), fun e he => ?_⟩
    rw [hm] at he
    have he2 := Except.error.inj he
    exact ⟨rfl, by rw [← he2]; rfl, he2.symm⟩
  | some tc0 =>
    have hm : makeLocalServer fs cr config treeName =
        .ok { config_paths := tc0.2.paths
              tree_name := treeName
              ident_map := IdentMap.new (fs (tc0.2.paths.index_path ++ "/identifiers"))
              crossref_lookup_map :=
                cr (tc0.2.paths.index_path ++ "/crossref")
                  (tc0.2.paths.index_path ++ "/crossref-extra") } := by
      unfold makeLocalServer
      rw [hf]
      rfl
    refine ⟨fun h0 => absurd h0 (by simp), fun tc htc => ?_, fun e he => ?_⟩
    · have : tc0 = tc := Option.some.inj htc
      subst this
      exact ⟨_, hm, rfl, rfl, rfl⟩
    · rw [hm] at he
      exact absurd he (by simp)

/-- C7 counterexample: at a concrete configuration with no trees, the
construction error for an unknown tree is literally the
`ServerError::StickyProblem` variant, contradicting the claim's "not a
storage/sticky error". -/
theorem C7_counterexample :
    makeLocalServer (fun _ => .error "no fs") (fun _ _ => none) ⟨[]⟩ "webidl" =
      .error (.stickyProblem ⟨.badInput, "bad tree name: webidl"⟩) ∧
    (ServerError.stickyProblem ⟨.badInput, "bad tree name: webidl"⟩).isStickyProblem
      = true := by
  exact ⟨rfl, rfl⟩

/-- C7 witness: the failure branch of `C7_unknown_tree` applied at a
concrete configuration. -/
theorem C7_unknown_tree_witness :
    makeLocalServer (fun _ => .error "no fs") (fun _ _ => none) ⟨[]⟩ "tree" =
      .error (.stickyProblem ⟨.badInput, "bad tree name: tree"⟩) :=
  (C7_unknown_tree (fun _ => .error "no fs") (fun _ _ => none) ⟨[]⟩ "tree").1 rfl

theorem collectResults_ok {β ε α : Type _} (f : β → Except ε α) (conv : β → α) :
    ∀ l : List β, (∀ s ∈ l, f s = .ok (conv s)) →
      collectResults (l.map f) = .ok (l.map conv) := by
  intro l
  induction l with
  | nil => intro _; rfl
  | cons s l ih =>
    intro h
    simp only [List.map_cons]
    rw [h s (by simp)]
    show (match collectResults (List.map f l) with
          | .error e => (.error e : Except ε (List α))
          | .ok vs => .ok (conv s :: vs)) = _
    rw [ih (fun x hx => h x (by simp [hx]))]

theorem collectResults_err {β ε α : Type _} (f : β → Except ε α) :
    ∀ l : List β, (∃ s ∈ l, ∃ e, f s = .error e) →
      ∃ s ∈ l, ∃ e, f s = .error e ∧ collectResults (l.map f) = .error e := by
  intro l
  induction l with
  | nil =>
    intro ⟨s, hs, _⟩
    simp at hs
  | cons a l ih =>
    intro hex
    cases hfa : f a with
    | error e =>
      refine ⟨a, by simp, e, hfa, ?_⟩
      simp only [List.map_cons, hfa]
      rfl
    | ok v =>
      have hex' : ∃ s ∈ l, ∃ e, f s = .error e := by
        obtain ⟨s, hs, e, he⟩ := hex
        rcases List.mem_cons.mp hs with rfl | hsl
        · rw [hfa] at he
          exact absurd he (by simp)
        · exact ⟨s, hsl, e, he⟩
      obtain ⟨s, hs, e, he, hce⟩ := ih hex'
      refine ⟨s, by simp [hs], e, he, ?_⟩
      simp only [List.map_cons, hfa]
      show (match collectResults (List.map f l) with
            | .error e => (.error e : Except ε (List α))
            | .ok vs => .ok (v :: vs)) = .error e
      rw [hce]

/-- C6: decoding a decompressed NDJSON artifact is all-or-nothing — if every
line parses, `fetch_raw_analysis` returns all records in line order; if any
line fails to parse, the whole call fails with a storage error (a sticky
problem) and no partial sequence is returned. -/
theorem C6_ndjson_all_or_nothing {α : Type} (raw : String)
    (parse : String → Except String α) :
    (∀ conv : String → α, (∀ s ∈ rustStrLines raw, parse s = .ok (conv s)) →
       fetchRawAnalysis (.ok raw) parse = .ok ((rustStrLines raw).map conv)) ∧
    ((∃ s ∈ rustStrLines raw, ∃ e, parse s = .error e) →
       (∃ d, fetchRawAnalysis (.ok raw) parse = .error (.stickyProblem d)) ∧
       ∀ vs, fetchRawAnalysis (.ok raw) parse ≠ .ok vs) := by
  constructor
  · intro conv hall
    show readGzippedNdjson parse raw = _
    unfold readGzippedNdjson
    exact collectResults_ok _ conv _ (fun s hs => by rw [hall s hs]; rfl)
  · intro hex
    have hex2 : ∃ s ∈ rustStrLines raw, ∃ e,
        (fun s => (parse s).mapError serverErrorFromJson) s = .error e := by
      obtain ⟨s, hs, e, he⟩ := hex
      refine ⟨s, hs, serverErrorFromJson e, ?_⟩
      show (parse s).mapError serverErrorFromJson = Except.error (serverErrorFromJson e)
      rw [he]
      rfl
    obtain ⟨s, hs, e', he', hce⟩ := collectResults_err _ _ hex2
    have hsticky : ∃ d, e' = .stickyProblem d := by
      cases hp : parse s with
      | error e0 =>
        rw [hp] at he'
        have : serverErrorFromJson e0 = e' := by
          have := he'
          simp only [Except.mapError] at this
          exact Except.error.inj this
        exact ⟨⟨.serverLayer, e0⟩, this.symm⟩
      | ok v =>
        rw [hp] at he'
        simp [Except.mapError] at he'
    obtain ⟨d, hd⟩ := hsticky
    have hfetch : fetchRawAnalysis (.ok raw) parse = .error e' := by
      show readGzippedNdjson parse raw = _
      unfold readGzippedNdjson
      exact hce
    constructor
    · exact ⟨d, by rw [hfetch, hd]⟩
    · intro vs hvs
      rw [hfetch] at hvs
      exact absurd hvs (by simp)

/-- C6 witness: a concrete two-line payload where the second line fails to
parse (whole call fails as a sticky problem), and a concrete two-line
payload where every line parses (all records returned in line order). -/
theorem C6_ndjson_all_or_nothing_witness :
    ((∃ d, fetchRawAnalysis (α := Nat) (.ok "7\nx")
        (fun s => if s = "7" then .ok 7 else .error "bad") =
          .error (.stickyProblem d)) ∧
      ∀ vs, fetchRawAnalysis (α := Nat) (.ok "7\nx")
        (fun s => if s = "7" then .ok 7 else .error "bad") ≠ .ok vs) ∧
    fetchRawAnalysis (α := String) (.ok "a\nb") (fun s => .ok (s ++ "!")) =
      .ok ["a!", "b!"] := by
  constructor
  · exact (C6_ndjson_all_or_nothing "7\nx"
      (fun s => if s = "7" then .ok 7 else .error "bad")).2
      ⟨"x", by decide, "bad", by rfl⟩
  · have h := (C6_ndjson_all_or_nothing "a\nb" (fun s => Except.ok (s ++ "!"))).1
      (fun s => s ++ "!") (fun s _ => rfl)
    rw [h]
    rfl

theorem foldl_push_eq_map {α β : Type _} (f : α → β) :
    ∀ (l : List α) (acc : List β),
      l.foldl (fun acc ir => acc ++ [f ir]) acc = acc ++ l.map f := by
  intro l
  induction l with
  | nil => intro acc; simp
  | cons a l ih =>
    intro acc
    simp only [List.foldl_cons, List.map_cons]
    rw [ih (acc ++ [f a])]
    simp

/-- C1 (amended): `search_identifiers` returns exactly the pairs produced
by `IdentMap::lookup`, but with the components swapped relative to the
claim: the first component is the raw symbol and the second the display
id (`results.push((ir.symbol, ir.id))`). -/
theorem C1_search_swapped_pairs (srv : LocalIndex) (needle : List Nat)
    (em ic : Bool) (k : Nat) (dem : List Nat → List Nat) :
    LocalIndex.search_identifiers srv needle em ic k dem =
      Option.map (List.map fun ir => (ir.symbol, ir.id))
        (srv.ident_map.lookup needle em ic k dem) := by
  unfold LocalIndex.search_identifiers
  cases h : srv.ident_map.lookup needle em ic k dem with
  | none => rfl
  | some irs =>
    show some (irs.foldl (fun acc ir => acc ++ [(ir.symbol, ir.id)]) []) =
      Option.map (List.map fun ir => (ir.symbol, ir.id)) (some irs)
    rw [foldl_push_eq_map (fun ir => (ir.symbol, ir.id)) irs []]
    rfl

/-- C1 counterexample: on the index `abc m` with an identity demangler, the
local server returns the pair `("m", "abc")` — raw symbol first — not the
`(display_id, raw_symbol)` = `("abc", "m")` ordering the claim states. -/
theorem C1_counterexample :
    LocalIndex.search_identifiers
      ⟨⟨"idx"⟩, "tree", ⟨some (joinNL [strBytes "abc m"])⟩, none⟩
      (strBytes "abc") false false 1 (fun s => s) =
      some [(strBytes "m", strBytes "abc")] ∧
    [(strBytes "m", strBytes "abc")] ≠ [(strBytes "abc", strBytes "m")] := by
  exact ⟨by decide, by decide⟩

/-- C10: on a well-formed index file (valid UTF-8 records, no empty
records, each with at least two space-separated fields, sorted by
byte-wise uppercase ordering) and a printable-ASCII space-free needle,
`lookup` never panics: it returns a result list. -/
theorem C10_lookup_no_panic {ls : List (List Nat)} (hwf : WFLines ls)
    (hsort : sortedB ls = true) (hfld : WFFields ls) {needle : List Nat}
    (hn : NeedleOK needle) (em ic : Bool) (k : Nat) (dem : List Nat → List Nat) :
    ∃ rs, lookupBuf (joinNL ls) needle em ic k dem = some rs :=
  ⟨_, lookup_master hwf hsort hfld hn em ic k dem⟩

/-- C10 witness. -/
theorem C10_lookup_no_panic_witness :
    (WFLines [strBytes "FOO.BAR a", strBytes "FOO:BAR b", strBytes "FOOBAR c"] ∧
     sortedB [strBytes "FOO.BAR a", strBytes "FOO:BAR b", strBytes "FOOBAR c"] = true ∧
     WFFields [strBytes "FOO.BAR a", strBytes "FOO:BAR b", strBytes "FOOBAR c"] ∧
     NeedleOK (strBytes "foo")) ∧
    ∃ rs, lookupBuf (joinNL [strBytes "FOO.BAR a", strBytes "FOO:BAR b", strBytes "FOOBAR c"])
      (strBytes "foo") false true 5 (fun s => s) = some rs :=
  ⟨by decide, C10_lookup_no_panic (by decide) (by decide) (by decide) (by decide)
    false true 5 (fun s => s)⟩

/-- C9: with `max_results = 0`, `lookup` returns every record of the
bisected range that passes the suffix and case filters — the cap check only
fires after a push, so it never fires. -/
theorem C9_zero_cap_returns_all {ls : List (List Nat)} (hwf : WFLines ls)
    (hsort : sortedB ls = true) (hfld : WFFields ls) {needle : List Nat}
    (hn : NeedleOK needle) (em ic : Bool) (dem : List Nat → List Nat) :
    lookupBuf (joinNL ls) needle em ic 0 dem =
      some ((ls.filter (inRange needle)).filterMap (matchLine needle em ic dem)) := by
  rw [lookup_master hwf hsort hfld hn em ic 0 dem]
  rfl

/-- C9 witness: a file with two passing records, all returned at cap 0. -/
theorem C9_zero_cap_returns_all_witness :
    (WFLines [strBytes "FOOA x", strBytes "FOOBAR y"] ∧
     sortedB [strBytes "FOOA x", strBytes "FOOBAR y"] = true ∧
     WFFields [strBytes "FOOA x", strBytes "FOOBAR y"] ∧
     NeedleOK (strBytes "foo")) ∧
    lookupBuf (joinNL [strBytes "FOOA x", strBytes "FOOBAR y"])
        (strBytes "foo") false true 0 (fun s => s) =
      some (([strBytes "FOOA x", strBytes "FOOBAR y"].filter
        (inRange (strBytes "foo"))).filterMap
          (matchLine (strBytes "foo") false true (fun s => s))) :=
  ⟨by decide, C9_zero_cap_returns_all (by decide) (by decide) (by decide) (by decide)
    false true (fun s => s)⟩

/-- C2 counterexample: with `max_results = 0` and two matching records, the
code returns both results — not "at most 0". -/
theorem C2_counterexample :
    lookupBuf (joinNL [strBytes "FOOA x", strBytes "FOOBAR y"]) (strBytes "foo")
        false true 0 (fun s => s) =
      some [⟨strBytes "FOOA", strBytes "x"⟩, ⟨strBytes "FOOBAR", strBytes "y"⟩] ∧
    ¬ ([(⟨strBytes "FOOA", strBytes "x"⟩ : IdentResult),
        ⟨strBytes "FOOBAR", strBytes "y"⟩].length ≤ 0) := by
  exact ⟨by decide, by decide⟩

/-- C2 (amended): for `max_results = k ≥ 1`, `lookup` returns at most `k`
results, and exactly the first `k` passing records in sorted file order;
for `k = 0` the cap does not apply (see C9). -/
theorem C2_result_cap {ls : List (List Nat)} (hwf : WFLines ls)
    (hsort : sortedB ls = true) (hfld : WFFields ls) {needle : List Nat}
    (hn : NeedleOK needle) (em ic : Bool) {k : Nat} (hk : 1 ≤ k)
    (dem : List Nat → List Nat) :
    lookupBuf (joinNL ls) needle em ic k dem =
      some (((ls.filter (inRange needle)).filterMap
        (matchLine needle em ic dem)).take k) ∧
    ∀ rs, lookupBuf (joinNL ls) needle em ic k dem = some rs → rs.length ≤ k := by
  have h := lookup_master hwf hsort hfld hn em ic k dem
  have hcap : capResults k ((ls.filter (inRange needle)).filterMap
      (matchLine needle em ic dem)) =
      ((ls.filter (inRange needle)).filterMap (matchLine needle em ic dem)).take k := by
    unfold capResults
    rw [if_neg (by omega)]
  constructor
  · rw [h, hcap]
  · intro rs hrs
    rw [h, hcap] at hrs
    rw [← Option.some.inj hrs]
    have := List.length_take k
      ((ls.filter (inRange needle)).filterMap (matchLine needle em ic dem))
    omega

/-- C2 witness: cap 1 with two passing records keeps exactly the first. -/
theorem C2_result_cap_witness :
    ((WFLines [strBytes "FOOA x", strBytes "FOOBAR y"] ∧
      sortedB [strBytes "FOOA x", strBytes "FOOBAR y"] = true ∧
      WFFields [strBytes "FOOA x", strBytes "FOOBAR y"] ∧
      NeedleOK (strBytes "foo")) ∧ 1 ≤ 1) ∧
    (lookupBuf (joinNL [strBytes "FOOA x", strBytes "FOOBAR y"])
        (strBytes "foo") false true 1 (fun s => s) =
      some ((([strBytes "FOOA x", strBytes "FOOBAR y"].filter
        (inRange (strBytes "foo"))).filterMap
          (matchLine (strBytes "foo") false true (fun s => s))).take 1) ∧
     ∀ rs, lookupBuf (joinNL [strBytes "FOOA x", strBytes "FOOBAR y"])
        (strBytes "foo") false true 1 (fun s => s) = some rs → rs.length ≤ 1) :=
  ⟨⟨by decide, by decide⟩,
   C2_result_cap (by decide) (by decide) (by decide) (by decide) false true
     (by decide) (fun s => s)⟩

theorem upByte_eq_32 {x : Nat} (h : upByte x = 32) : x = 32 := by
  unfold upByte at h
  split at h <;> omega

theorem take_isPrefixOf {x y : List Nat} (h : y.take x.length = x) :
    x.isPrefixOf y = true := by
  have hy : y = x ++ y.drop x.length := by
    conv_lhs => rw [← List.take_append_drop x.length y]
    rw [h]
  rw [hy]
  exact append_isPrefixOf x (y.drop x.length)

theorem inRange_byte_match {needle l : List Nat} (hrange : inRange needle l = true) :
    needle.length ≤ l.length ∧
    ∀ j, j < needle.length → upByte (l.getD j 0) = upByte (needle.getD j 0) := by
  obtain ⟨hlow, hup⟩ := (inRange_iff needle l).mp hrange
  have hpre : (uppercase needle).isPrefixOf (uppercase l) = true :=
    between_isPrefixOf (by simp [bleb, hlow]) hup
  obtain ⟨t, ht⟩ := isPrefixOf_ex hpre
  have hlen_l : needle.length ≤ l.length := by
    have := congrArg List.length ht
    simp only [uppercase, List.length_map, List.length_append] at this
    omega
  refine ⟨hlen_l, ?_⟩
  intro j hj
  have hj2 : j < l.length := lt_of_lt_of_le hj hlen_l
  have e1 : (uppercase l).getD j 0 = upByte (l.getD j 0) := uppercase_getD hj2
  have e2 : (uppercase l).getD j 0 = (uppercase needle).getD j 0 := by
    rw [ht]
    exact getD_append_left' (by simpa [uppercase] using hj)
  rw [e1.symm, e2]
  exact uppercase_getD hj

theorem inRange_id_isPrefixOf {needle l : List Nat} (h32n : ¬ (32:Nat) ∈ needle)
    (hrange : inRange needle l = true) :
    (uppercase needle).isPrefixOf
      (uppercase (l.takeWhile (fun b => !(b == 32)))) = true := by
  obtain ⟨hlen_l, hbyte⟩ := inRange_byte_match hrange
  have hne32 : ∀ j, j < needle.length → l.getD j 0 ≠ 32 := by
    intro j hj heq
    have hb := hbyte j hj
    rw [heq] at hb
    have h32 : upByte (needle.getD j 0) = 32 := by
      rw [← hb]
      rfl
    exact h32n ((upByte_eq_32 h32) ▸ getD_mem hj)
  have hid_len : needle.length ≤ (l.takeWhile (fun b => !(b == 32))).length := by
    apply takeWhile_length_ge _ _ hlen_l
    intro j hj
    have := hne32 j hj
    simp only [Bool.not_eq_true', beq_eq_false_iff_ne, ne_eq]
    exact this
  apply take_isPrefixOf
  have hlen_un : (uppercase needle).length = needle.length := by simp [uppercase]
  rw [hlen_un]
  unfold uppercase
  rw [← List.map_take]
  apply List.ext_getElem
  · simp only [List.length_map, List.length_take]
    omega
  · intro j hj1 hj2
    have hjn : j < needle.length := by
      simp only [List.length_map, List.length_take] at hj1
      omega
    have hjid : j < (l.takeWhile (fun b => !(b == 32))).length := by omega
    simp only [List.getElem_map, List.getElem_take]
    have e1 : (l.takeWhile (fun b => !(b == 32)))[j] =
        (l.takeWhile (fun b => !(b == 32))).getD j 0 := by
      simp [List.getD_eq_getElem?_getD, List.getElem?_eq_getElem hjid]
    have e2 : needle[j] = needle.getD j 0 := by
      simp [List.getD_eq_getElem?_getD, List.getElem?_eq_getElem hjn]
    rw [e1, e2, takeWhile_getD hjid]
    exact hbyte j hjn

/-- C3 (amended): on a sorted well-formed index, the lower bisection is at
most the upper one, both land on record boundaries, and the half-open byte
range contains exactly the records whose uppercase form lies between the
uppercased needle and the uppercased needle followed by the sentinel `b'~'`
(126).  Every record in the range has the needle's uppercase form as a
prefix of its uppercase id, but not conversely: a prefix-matching record
whose byte right after the needle sorts at or above `b'~'` falls outside
the range (see the counterexample). -/
theorem C3_bisect_range {ls : List (List Nat)} (hwf : WFLines ls)
    (hsort : sortedB ls = true) (needle : List Nat) :
    ∃ s e, bisect (joinNL ls) needle false = some s ∧
      bisect (joinNL ls) needle true = some e ∧
      s ≤ e ∧ e ≤ (joinNL ls).length ∧
      ((joinNL ls).take e).drop s = joinNL (ls.filter (inRange needle)) ∧
      rustLines (((joinNL ls).take e).drop s) = ls.filter (inRange needle) ∧
      (∀ l ∈ ls, inRange needle l = true →
        (uppercase needle).isPrefixOf (uppercase l) = true) ∧
      (¬ (32:Nat) ∈ needle → ∀ l ∈ ls, inRange needle l = true →
        (uppercase needle).isPrefixOf
          (uppercase (l.takeWhile (fun b => !(b == 32)))) = true) := by
  have hslice : ((joinNL ls).take (offAt ls (upCount needle ls))).drop
      (offAt ls (lowCount needle ls)) = joinNL (ls.filter (inRange needle)) := by
    rw [slice_eq_middle ls (lowCount_le_upCount needle ls),
      middle_eq_filter hsort needle]
  refine ⟨_, _, bisect_low hwf hsort needle, bisect_up hwf hsort needle,
    offAt_mono ls (lowCount_le_upCount needle ls), offAt_le_length ls _,
    hslice, ?_, ?_, ?_⟩
  · rw [hslice]
    exact rustLines_joinNL (fun l hl => (hwf l (List.mem_of_mem_filter hl)).2)
  · intro l _ hr
    obtain ⟨hlow, hup⟩ := (inRange_iff needle l).mp hr
    exact between_isPrefixOf (by simp [bleb, hlow]) hup
  · intro h32n l _ hr
    exact inRange_id_isPrefixOf h32n hr

/-- C3 counterexample: in the sorted file `FOO a\nFOO~B c\n`, the record
with id `FOO~B` has uppercase id prefixed by the needle `FOO`'s uppercase
form, yet the bisected range `[0, 6)` contains only the record `FOO a` —
the `'~'` sentinel cuts off ids whose byte after the needle sorts at or
after `'~'`. -/
theorem C3_counterexample :
    bisect (joinNL [strBytes "FOO a", strBytes "FOO~B c"]) (strBytes "FOO") false =
      some 0 ∧
    bisect (joinNL [strBytes "FOO a", strBytes "FOO~B c"]) (strBytes "FOO") true =
      some 6 ∧
    sortedB [strBytes "FOO a", strBytes "FOO~B c"] = true ∧
    WFLines [strBytes "FOO a", strBytes "FOO~B c"] ∧
    (strBytes "FOO~B c").takeWhile (fun b => !(b == 32)) = strBytes "FOO~B" ∧
    (uppercase (strBytes "FOO")).isPrefixOf (uppercase (strBytes "FOO~B")) = true ∧
    rustLines (((joinNL [strBytes "FOO a", strBytes "FOO~B c"]).take 6).drop 0) =
      [strBytes "FOO a"] := by
  exact ⟨by decide, by decide, by decide, by decide, by decide, by decide, by decide⟩

/-- C3 witness. -/
theorem C3_bisect_range_witness :
    (WFLines [strBytes "FOOA x", strBytes "FOO~B c"] ∧
     sortedB [strBytes "FOOA x", strBytes "FOO~B c"] = true) ∧
    ∃ s e, bisect (joinNL [strBytes "FOOA x", strBytes "FOO~B c"]) (strBytes "FOO")
        false = some s ∧
      bisect (joinNL [strBytes "FOOA x", strBytes "FOO~B c"]) (strBytes "FOO")
        true = some e ∧
      s ≤ e ∧ e ≤ (joinNL [strBytes "FOOA x", strBytes "FOO~B c"]).length ∧
      ((joinNL [strBytes "FOOA x", strBytes "FOO~B c"]).take e).drop s =
        joinNL ([strBytes "FOOA x", strBytes "FOO~B c"].filter
          (inRange (strBytes "FOO"))) ∧
      rustLines (((joinNL [strBytes "FOOA x", strBytes "FOO~B c"]).take e).drop s) =
        [strBytes "FOOA x", strBytes "FOO~B c"].filter (inRange (strBytes "FOO")) ∧
      (∀ l ∈ [strBytes "FOOA x", strBytes "FOO~B c"],
        inRange (strBytes "FOO") l = true →
        (uppercase (strBytes "FOO")).isPrefixOf (uppercase l) = true) ∧
      (¬ (32:Nat) ∈ strBytes "FOO" →
        ∀ l ∈ [strBytes "FOOA x", strBytes "FOO~B c"],
        inRange (strBytes "FOO") l = true →
        (uppercase (strBytes "FOO")).isPrefixOf
          (uppercase (l.takeWhile (fun b => !(b == 32)))) = true) :=
  ⟨by decide, C3_bisect_range (by decide) (by decide) (strBytes "FOO")⟩

/-- C8: every returned candidate's symbol field is the raw symbol, and its
displayed identifier is the demangled symbol when the demangler changed it,
the original id otherwise. -/
theorem C8_demangle_display {ls : List (List Nat)} (hwf : WFLines ls)
    (hsort : sortedB ls = true) (hfld : WFFields ls) {needle : List Nat}
    (hn : NeedleOK needle) (em ic : Bool) (k : Nat) (dem : List Nat → List Nat) :
    ∀ rs, lookupBuf (joinNL ls) needle em ic k dem = some rs →
      ∀ p ∈ rs, ∃ l, l ∈ ls ∧ inRange needle l = true ∧
        p.symbol = symOfLine l ∧
        p.id = if dem (symOfLine l) = symOfLine l then idOfLine l
               else dem (symOfLine l) := by
  intro rs h p hp
  obtain ⟨l, hl, hr, hpl⟩ := lookup_sound hwf hsort hfld hn em ic k dem h p hp
  obtain ⟨_, _, _, _, hpeq⟩ := processLine_inv hpl
  exact ⟨l, hl, hr, by rw [hpeq], by rw [hpeq]⟩

/-- C8 witness: with a demangler that rewrites `M1` to `pretty`, the
returned pair displays `pretty` while keeping the raw symbol `M1`. -/
theorem C8_demangle_display_witness :
    (WFLines [strBytes "abc M1"] ∧ sortedB [strBytes "abc M1"] = true ∧
     WFFields [strBytes "abc M1"] ∧ NeedleOK (strBytes "abc")) ∧
    lookupBuf (joinNL [strBytes "abc M1"]) (strBytes "abc") false true 0
        (fun s => if s = strBytes "M1" then strBytes "pretty" else s) =
      some [⟨strBytes "pretty", strBytes "M1"⟩] ∧
    ∀ rs, lookupBuf (joinNL [strBytes "abc M1"]) (strBytes "abc") false true 0
        (fun s => if s = strBytes "M1" then strBytes "pretty" else s) = some rs →
      ∀ p ∈ rs, ∃ l, l ∈ [strBytes "abc M1"] ∧
        inRange (strBytes "abc") l = true ∧
        p.symbol = symOfLine l ∧
        p.id = if (fun s => if s = strBytes "M1" then strBytes "pretty" else s)
                    (symOfLine l) = symOfLine l then idOfLine l
               else (fun s => if s = strBytes "M1" then strBytes "pretty" else s)
                    (symOfLine l) :=
  ⟨by decide, by decide,
   C8_demangle_display (by decide) (by decide) (by decide) (by decide)
     false true 0 (fun s => if s = strBytes "M1" then strBytes "pretty" else s)⟩

theorem contains_false_of_not_mem {l : List Nat} {b : Nat} (h : ¬ b ∈ l) :
    l.contains b = false := by
  rcases Bool.eq_false_or_eq_true (l.contains b) with hc | hc
  · exact absurd (mem_of_contains_true hc) h
  · exact hc

theorem stripCR_eq_self {l : List Nat} (h : ¬ (13:Nat) ∈ l) : stripCR l = l := by
  rcases stripCR_cases l with he | ⟨y, hy, he⟩
  · exact he
  · exact absurd (by rw [hy]; simp) h

theorem takeWhile_all {p : Nat → Bool} :
    ∀ {l : List Nat}, (∀ b ∈ l, p b = true) → l.takeWhile p = l := by
  intro l
  induction l with
  | nil => intro _; rfl
  | cons a l ih =>
    intro h
    simp only [List.takeWhile_cons, h a (by simp), if_true]
    rw [ih (fun b hb => h b (by simp [hb]))]

theorem bleb_append_left (a x y : List Nat) : bleb (a ++ x) (a ++ y) = bleb x y := by
  simp [bleb, bltb_append_left]

theorem bleb_head_lt {b c : Nat} (h : b < c) (x : List Nat) :
    bleb (b :: x) [c] = true := by
  show (!(bltb (c :: []) (b :: x))) = true
  rw [bltb_cons, if_neg (by omega), if_pos h]
  rfl

theorem upByte_lt_126 {b : Nat} (h1 : 33 ≤ b) (h2 : b ≤ 125) : upByte b < 126 := by
  unfold upByte
  split <;> omega

theorem charBoundary_append_next {needle suffix : List Nat}
    (h : ∀ b ∈ suffix, b < 128) :
    charBoundary (needle ++ suffix) needle.length = true := by
  unfold charBoundary
  by_cases h0 : needle.length = 0
  · rw [if_pos h0]
  · rw [if_neg h0]
    cases suffix with
    | nil =>
      rw [if_neg (by simp)]
      simp
    | cons b s' =>
      rw [if_pos (by simp)]
      have hgd : (needle ++ b :: s').getD needle.length 0 = b := by
        rw [List.getD_eq_getElem?_getD, List.getElem?_append_right (le_refl _)]
        simp
      rw [hgd]
      have hb := h b (by simp)
      have hic : isCont b = false := by
        simp only [isCont, Bool.and_eq_false_iff, decide_eq_false_iff_not]
        left
        omega
      rw [hic]
      rfl

theorem singleRecord_facts {needle suffix sym : List Nat} (hn : NeedleOK needle)
    (hsuf : ∀ b ∈ suffix, 33 ≤ b ∧ b ≤ 125)
    (hsym : ∀ b ∈ sym, 33 ≤ b ∧ b ≤ 126) :
    WFLines [needle ++ suffix ++ 32 :: sym] ∧
    sortedB [needle ++ suffix ++ 32 :: sym] = true ∧
    WFFields [needle ++ suffix ++ 32 :: sym] ∧
    inRange needle (needle ++ suffix ++ 32 :: sym) = true ∧
    ∀ (em ic : Bool) (dem : List Nat → List Nat),
      processLine needle em ic dem (needle ++ suffix ++ 32 :: sym) =
        if (suffix.contains 58 || suffix.contains 46 || (em && !suffix.isEmpty)) = true
        then some none
        else if (!ic && !(needle.isPrefixOf (needle ++ suffix))) = true then some none
        else some (some ⟨if dem sym = sym then needle ++ suffix else dem sym, sym⟩) := by
  have hmem : ∀ b ∈ needle ++ suffix ++ 32 :: sym, b = 32 ∨ (33 ≤ b ∧ b ≤ 126) := by
    intro b hb
    rcases List.mem_append.mp hb with hb1 | hb2
    · rcases List.mem_append.mp hb1 with hbn | hbs
      · right; exact hn b hbn
      · right
        have := hsuf b hbs
        omega
    · rcases List.mem_cons.mp hb2 with rfl | hbsym
      · left; rfl
      · right; exact hsym b hbsym
  have h13 : ¬ (13:Nat) ∈ needle ++ suffix ++ 32 :: sym := by
    intro h
    rcases hmem 13 h with h | h <;> omega
  have h10 : ¬ (10:Nat) ∈ needle ++ suffix ++ 32 :: sym := by
    intro h
    rcases hmem 10 h with h | h <;> omega
  have h32mem : (32:Nat) ∈ needle ++ suffix ++ 32 :: sym := by simp
  have hne : needle ++ suffix ++ 32 :: sym ≠ [] := by
    intro h
    rw [h] at h32mem
    simp at h32mem
  have hascii : ∀ b ∈ needle ++ suffix ++ 32 :: sym, b < 128 := by
    intro b hb
    rcases hmem b hb with h | h <;> omega
  have hvalid : validUtf8 (needle ++ suffix ++ 32 :: sym) = true :=
    ascii_validUtf8 hascii
  have hstrip : stripCR (needle ++ suffix ++ 32 :: sym) = needle ++ suffix ++ 32 :: sym :=
    stripCR_eq_self h13
  have hid : idOfLine (needle ++ suffix ++ 32 :: sym) = needle ++ suffix := by
    unfold idOfLine
    rw [hstrip]
    apply takeWhile_append_stop (needle ++ suffix) sym ?_ (by simp)
    intro b hb
    have hb32 : b ≠ 32 := by
      rcases List.mem_append.mp hb with h | h
      · have := hn b h; omega
      · have := hsuf b h; omega
    simp [hb32]
  have hsymv : symOfLine (needle ++ suffix ++ 32 :: sym) = sym := by
    unfold symOfLine
    rw [hstrip, hid]
    rw [show (needle ++ suffix ++ 32 :: sym).drop ((needle ++ suffix).length + 1) = sym by
      rw [List.drop_append 1]
      rfl]
    apply takeWhile_all
    intro b hb
    have := hsym b hb
    have hb32 : b ≠ 32 := by omega
    simp [hb32]
  have hsufv : sufOfLine needle (needle ++ suffix ++ 32 :: sym) = suffix := by
    unfold sufOfLine
    rw [hid]
    exact List.drop_left needle suffix
  have hcb : charBoundary (needle ++ suffix) needle.length = true := by
    apply charBoundary_append_next
    intro b hb
    have := hsuf b hb
    omega
  refine ⟨?_, rfl, ?_, ?_, ?_⟩
  · intro x hx
    rw [List.mem_singleton.mp hx]
    exact ⟨hne, contains_false_of_not_mem h10⟩
  · intro x hx
    rw [List.mem_singleton.mp hx]
    exact ⟨contains_true_of_mem h32mem, hvalid⟩
  · unfold inRange
    have e : uppercase (needle ++ suffix ++ 32 :: sym) =
        uppercase needle ++ uppercase (suffix ++ 32 :: sym) := by
      simp [uppercase]
    rw [e]
    rw [Bool.and_eq_true]
    constructor
    · exact bleb_of_append _ _
    · rw [bleb_append_left]
      cases hs : suffix with
      | nil =>
        show bleb (uppercase (32 :: sym)) [126] = true
        show bleb (32 :: uppercase sym) [126] = true
        exact bleb_head_lt (by omega) _
      | cons b s' =>
        show bleb (upByte b :: uppercase (s' ++ 32 :: sym)) [126] = true
        have hb := hsuf b (by simp [hs])
        exact bleb_head_lt (upByte_lt_126 hb.1 hb.2) _
  · intro em ic dem
    rw [processLine_eq]
    rw [if_neg (by rw [hvalid]; simp)]
    rw [if_neg (by rw [hstrip]; rw [contains_true_of_mem h32mem]; simp)]
    rw [if_neg (by
      rw [hid, hcb]
      simp only [Bool.not_true, Bool.or_false]
      simp only [decide_eq_true_eq]
      simp only [List.length_append, gt_iff_lt, Nat.not_lt]
      omega)]
    rw [hsufv, hid, hsymv]

/-- C4 (amended): a candidate whose id suffix after the needle contains
`:` or `.` is never returned, and with `exact_match` a candidate with a
non-empty suffix is never returned; a candidate with a non-empty clean
suffix is returned when `exact_match` is false provided it lies in the
bisected range, passes the case filter, and the result cap has not already
been reached (the counterexample drops such a candidate purely through
`max_results`). -/
theorem C4_suffix_rules :
    (∀ (ls : List (List Nat)), WFLines ls → sortedB ls = true → WFFields ls →
      ∀ (needle : List Nat), NeedleOK needle →
      ∀ (em ic : Bool) (k : Nat) (dem : List Nat → List Nat)
        (rs : List IdentResult),
      lookupBuf (joinNL ls) needle em ic k dem = some rs →
      ∀ p ∈ rs, ∃ l, l ∈ ls ∧
        (sufOfLine needle l).contains 58 = false ∧
        (sufOfLine needle l).contains 46 = false ∧
        (em = true → (sufOfLine needle l).isEmpty = true) ∧
        processLine needle em ic dem l = some (some p)) ∧
    (∀ (needle suffix sym : List Nat), NeedleOK needle →
      (∀ b ∈ suffix, 33 ≤ b ∧ b ≤ 125) → (∀ b ∈ sym, 33 ≤ b ∧ b ≤ 126) →
      suffix.contains 58 = false → suffix.contains 46 = false →
      ∀ dem : List Nat → List Nat,
        lookupBuf (joinNL [needle ++ suffix ++ 32 :: sym]) needle false true 0 dem =
          some [⟨if dem sym = sym then needle ++ suffix else dem sym, sym⟩]) ∧
    (∀ (needle suffix sym : List Nat), NeedleOK needle →
      (∀ b ∈ suffix, 33 ≤ b ∧ b ≤ 125) → (∀ b ∈ sym, 33 ≤ b ∧ b ≤ 126) →
      (suffix.contains 58 = true ∨ suffix.contains 46 = true ∨ suffix ≠ []) →
      ∀ dem : List Nat → List Nat,
        lookupBuf (joinNL [needle ++ suffix ++ 32 :: sym]) needle true true 0 dem =
          some []) := by
  refine ⟨?_, ?_, ?_⟩
  · intro ls hwf hsort hfld needle hn em ic k dem rs h p hp
    obtain ⟨l, hl, _, hpl⟩ := lookup_sound hwf hsort hfld hn em ic k dem h p hp
    obtain ⟨h58, h46, hem, _, _⟩ := processLine_inv hpl
    exact ⟨l, hl, h58, h46, hem, hpl⟩
  · intro needle suffix sym hn hsuf hsym h58 h46 dem
    obtain ⟨hWFL, hsorted, hWFF, hrange, hproc⟩ := singleRecord_facts hn hsuf hsym
    rw [lookup_master hWFL hsorted hWFF hn false true 0 dem]
    have hfil : [needle ++ suffix ++ 32 :: sym].filter (inRange needle) =
        [needle ++ suffix ++ 32 :: sym] := by
      show List.filter (inRange needle) ((needle ++ suffix ++ 32 :: sym) :: []) = _
      rw [List.filter_cons_of_pos hrange]
      rfl
    rw [hfil]
    have hm : matchLine needle false true dem (needle ++ suffix ++ 32 :: sym) =
        some ⟨if dem sym = sym then needle ++ suffix else dem sym, sym⟩ := by
      unfold matchLine
      rw [hproc false true dem]
      rw [if_neg (by rw [h58, h46]; simp)]
      rw [if_neg (by simp)]
      rfl
    rw [List.filterMap_cons_some hm]
    rfl
  · intro needle suffix sym hn hsuf hsym hdirty dem
    obtain ⟨hWFL, hsorted, hWFF, hrange, hproc⟩ := singleRecord_facts hn hsuf hsym
    rw [lookup_master hWFL hsorted hWFF hn true true 0 dem]
    have hfil : [needle ++ suffix ++ 32 :: sym].filter (inRange needle) =
        [needle ++ suffix ++ 32 :: sym] := by
      show List.filter (inRange needle) ((needle ++ suffix ++ 32 :: sym) :: []) = _
      rw [List.filter_cons_of_pos hrange]
      rfl
    rw [hfil]
    have hm : matchLine needle true true dem (needle ++ suffix ++ 32 :: sym) = none := by
      unfold matchLine
      rw [hproc true true dem]
      rw [if_pos ?_]
      · rfl
      · rcases hdirty with h | h | h
        · rw [h]; rfl
        · rw [h]; simp
        · have : suffix.isEmpty = false := by
            cases suffix with
            | nil => exact absurd rfl h
            | cons a s => rfl
          simp [this]
    rw [List.filterMap_cons_none hm]
    rfl

/-- C4 counterexample: for needle `foo` with `exact_match = false`, the
candidate `FOOBAR` has the non-empty suffix `BAR`, free of `:` and `.`,
yet it is not returned because `max_results = 1` is exhausted by the
earlier record `FOOA`. -/
theorem C4_counterexample :
    lookupBuf (joinNL [strBytes "FOOA x", strBytes "FOOBAR y"]) (strBytes "foo")
        false true 1 (fun s => s) =
      some [⟨strBytes "FOOA", strBytes "x"⟩] ∧
    (strBytes "BAR").contains 58 = false ∧
    (strBytes "BAR").contains 46 = false ∧
    ¬ (⟨strBytes "FOOBAR", strBytes "y"⟩ : IdentResult) ∈
        [(⟨strBytes "FOOA", strBytes "x"⟩ : IdentResult)] := by
  exact ⟨by decide, by decide, by decide, by decide⟩

/-- C4 witness: the clean-suffix candidate `foobar` for needle `foo` is
returned with `exact_match = false` and dropped with `exact_match = true`. -/
theorem C4_suffix_rules_witness :
    (NeedleOK (strBytes "foo") ∧ (∀ b ∈ strBytes "bar", 33 ≤ b ∧ b ≤ 125) ∧
      (∀ b ∈ strBytes "sym", 33 ≤ b ∧ b ≤ 126) ∧
      (strBytes "bar").contains 58 = false ∧ (strBytes "bar").contains 46 = false) ∧
    lookupBuf (joinNL [strBytes "foo" ++ strBytes "bar" ++ 32 :: strBytes "sym"])
        (strBytes "foo") false true 0 (fun s => s) =
      some [⟨if (fun s => s) (strBytes "sym") = strBytes "sym"
             then strBytes "foo" ++ strBytes "bar"
             else (fun s => s) (strBytes "sym"), strBytes "sym"⟩] ∧
    lookupBuf (joinNL [strBytes "foo" ++ strBytes "bar" ++ 32 :: strBytes "sym"])
        (strBytes "foo") true true 0 (fun s => s) = some [] :=
  ⟨⟨by decide, by decide, by decide, by decide, by decide⟩,
   C4_suffix_rules.2.1 (strBytes "foo") (strBytes "bar") (strBytes "sym")
     (by decide) (by decide) (by decide) (by decide) (by decide) (fun s => s),
   C4_suffix_rules.2.2 (strBytes "foo") (strBytes "bar") (strBytes "sym")
     (by decide) (by decide) (by decide) (Or.inr (Or.inr (by decide))) (fun s => s)⟩

end Mozsearch
